import Mathlib

/-!
# Verification of the VISTA tracklet tracker

Shallow embedding of `src/vista/algorithms/trackers/tracklet_tracker.py`
(the two-stage tracklet-based tracker) together with theorems settling
the specification claims about it.

Modelling conventions:

* Scalar values (positions, radii, weights) are modelled by `ℚ`; frame
  indices are `ℤ`.
* `np.linalg.norm` is the only irrational-valued operation used by the
  source.  The whole development is therefore parametric in a function
  `nrm : ℚ × ℚ → ℚ` standing for the 2-vector Euclidean norm; every
  theorem quantifies over `nrm`, and concrete evaluations instantiate it
  with a computable norm (`nrm_taxi`), chosen so that it agrees with the
  Euclidean norm on the concrete inputs used (zero or axis-aligned
  difference vectors).
* `scipy.optimize.linear_sum_assignment` is an external library, modelled
  by a parameter `solver : Solver`.  `MatchingSolver` captures the part of
  its contract the claims rely on: the returned row indices are pairwise
  distinct, the returned column indices are pairwise distinct, and all
  indices are in range.
* Python lists indexed in-bounds are modelled with `List.getD`; all uses
  in reachable code paths are in-bounds (out-of-bounds indexing would
  raise in Python and never occurs with a `MatchingSolver`).
* Python object identity (used by `list.remove` on tracklets) is modelled
  by keeping track of list positions (`List.enum`) instead of values.
-/

unseal Rat.add Rat.sub Rat.mul Rat.inv

namespace Vista

/-- A 2-d position or velocity vector, stored as `(x, y)` = `(column, row)`,
matching `pos = np.array([detector.columns[i], detector.rows[i]])`. -/
abbrev Vec : Type := ℚ × ℚ

/-- A detection point: `(frame, (column, row))`. -/
abbrev Pt : Type := Int × Vec

/-- A concrete computable stand-in for the Euclidean norm (the taxicab
norm); it agrees with the Euclidean norm on zero and axis-aligned
vectors, which is all the concrete inputs below use. -/
def nrm_taxi (v : Vec) : ℚ :=
  (if v.1 < 0 then -v.1 else v.1) + (if v.2 < 0 then -v.2 else v.2)

/-- `class Tracklet`: high-confidence track segment with velocity
consistency (`tracklet_tracker.py`, lines 14-102). -/
structure Tracklet where
  id : Nat
  positions : List Vec
  frames : List Int
  velocity : Option Vec
deriving DecidableEq, Repr

instance : Inhabited Tracklet := ⟨⟨0, [], [], none⟩⟩

namespace Tracklet

/-- `Tracklet.__init__(detection_pos, frame, tracklet_id)`: a one-point
tracklet whose velocity is still undefined. -/
def init (d : Vec) (f : Int) (i : Nat) : Tracklet :=
  ⟨i, [d], [f], none⟩

/-- `self.positions[-1]` (the source only reads it when nonempty). -/
def lastPos (t : Tracklet) : Vec := t.positions.getLastD (0, 0)

/-- `self.frames[-1]` (the source only reads it when nonempty). -/
def lastFrame (t : Tracklet) : Int := t.frames.getLastD 0

/-- `self.positions[0]`. -/
def firstPos (t : Tracklet) : Vec := t.positions.headD (0, 0)

/-- `self.frames[0]`. -/
def firstFrame (t : Tracklet) : Int := t.frames.headD 0

/-- `Tracklet.add_detection` (lines 23-43): append the detection and
recompute the velocity estimate from the last `min 3 n` points. -/
def add_detection (t : Tracklet) (d : Vec) (f : Int) : Tracklet :=
  let positions := t.positions ++ [d]
  let frames := t.frames ++ [f]
  let velocity :=
    if 2 ≤ positions.length then
      let n := min 3 positions.length
      let recent_positions := positions.drop (positions.length - n)
      let recent_frames := frames.drop (frames.length - n)
      if 2 ≤ n then
        let dt_total := recent_frames.getLastD 0 - recent_frames.headD 0
        if 0 < dt_total then
          some ((dt_total : ℚ)⁻¹ •
            (recent_positions.getLastD (0, 0) - recent_positions.headD (0, 0)))
        else some ((0 : ℚ), (0 : ℚ))
      else some ((0 : ℚ), (0 : ℚ))
    else t.velocity
  ⟨t.id, positions, frames, velocity⟩

/-- `Tracklet.predict_position` (lines 45-53): `None` when the velocity is
undefined or there are no positions. -/
def predict_position (t : Tracklet) (target_frame : Int) : Option Vec :=
  match t.velocity with
  | none => none
  | some v =>
    if t.positions.length = 0 then none
    else some (t.lastPos + ((target_frame - t.lastFrame : Int) : ℚ) • v)

/-- `Tracklet.check_velocity_consistency` (lines 55-71): `True` with fewer
than two points, `False` on zero elapsed time, otherwise a bound on the
velocity change.  (With ≥ 2 points the source's `self.velocity` is never
`None`; `getD` supplies an arbitrary value on that unreachable path.) -/
def check_velocity_consistency (nrm : Vec → ℚ) (t : Tracklet) (d : Vec)
    (f : Int) (max_velocity_change : ℚ) : Bool :=
  if t.positions.length < 2 then true
  else
    let dt := f - t.lastFrame
    if dt = 0 then false
    else
      let new_velocity := ((dt : ℚ))⁻¹ • (d - t.lastPos)
      decide (nrm (new_velocity - t.velocity.getD (0, 0)) < max_velocity_change)

/-- `Tracklet.distance_to` (lines 73-78). -/
def distance_to (nrm : Vec → ℚ) (t : Tracklet) (d : Vec) (f : Int) : ℚ :=
  match t.predict_position f with
  | none => nrm (d - t.lastPos)
  | some pred => nrm (d - pred)

/-- `Tracklet.extrapolate_forward` (lines 80-85). -/
def extrapolate_forward (t : Tracklet) (frames_ahead : Int) : Option Vec :=
  match t.velocity with
  | none => none
  | some _ => t.predict_position (t.lastFrame + frames_ahead)

/-- `Tracklet.get_start_velocity` (lines 96-98). -/
def get_start_velocity (t : Tracklet) : Vec := t.velocity.getD (0, 0)

/-- `Tracklet.get_end_velocity` (lines 100-102). -/
def get_end_velocity (t : Tracklet) : Vec := t.velocity.getD (0, 0)

end Tracklet

/-! ## Configuration, input and output containers -/

/-- The configuration after `config.get(...)` extraction
(`run_tracklet_tracker`, lines 140-148). -/
structure Config where
  tracker_name : String
  initial_search_radius : ℚ
  max_velocity_change : ℚ
  min_tracklet_length : Int
  max_linking_gap : Int
  linking_search_radius : ℚ
  smoothness_weight : ℚ
  min_track_length : Int
deriving DecidableEq, Repr

/-- The raw `config` dictionary: each recognized key either present or
absent. -/
structure ConfigDict where
  tracker_name : Option String := none
  initial_search_radius : Option ℚ := none
  max_velocity_change : Option ℚ := none
  min_tracklet_length : Option Int := none
  max_linking_gap : Option Int := none
  linking_search_radius : Option ℚ := none
  smoothness_weight : Option ℚ := none
  min_track_length : Option Int := none
deriving DecidableEq, Repr

/-- Lines 140-148: `config.get(key, default)` for every option.  Note the
source performs no validation whatsoever on the extracted values. -/
def extract_config (c : ConfigDict) : Config where
  tracker_name := c.tracker_name.getD "Tracklet Tracker"
  initial_search_radius := c.initial_search_radius.getD 10
  max_velocity_change := c.max_velocity_change.getD 5
  min_tracklet_length := c.min_tracklet_length.getD 3
  max_linking_gap := c.max_linking_gap.getD 10
  linking_search_radius := c.linking_search_radius.getD 30
  smoothness_weight := c.smoothness_weight.getD 1
  min_track_length := c.min_track_length.getD 5

/-- A `Detector` input: parallel arrays of frames / rows / columns. -/
structure Detector where
  frames : List Int
  rows : List ℚ
  columns : List ℚ
deriving DecidableEq, Repr

/-- A VISTA `Track` as constructed at lines 359-369. -/
structure Track where
  name : String
  frames : List Int
  rows : List ℚ
  columns : List ℚ
  color : String
  marker : String
  line_width : Nat
  marker_size : Nat
  visible : Bool
deriving DecidableEq, Repr

/-- A VISTA `Tracker`: a named list of tracks. -/
structure Tracker where
  name : String
  tracks : List Track
deriving DecidableEq, Repr

/-! ## Collecting detections by frame (lines 150-162)

The Python code builds `detections_by_frame`, a dict from frame to the
list of detection positions inserted in detector order, and then visits
`sorted(detections_by_frame.keys())`.  We model the dict by filtering the
flat detection list and the sorted key list with `Finset.sort`. -/

/-- The `(frame, position)` pairs contributed by one detector, in index
order (lines 152-157); `position = (columns[i], rows[i])`. -/
def detectorPoints (d : Detector) : List Pt :=
  (List.zip d.frames (List.zip d.columns d.rows)).map
    (fun p => (p.1, (p.2.1, p.2.2)))

/-- All input detections, in detector order. -/
def allDetections (ds : List Detector) : List Pt :=
  (ds.map detectorPoints).flatten

/-- `sorted(detections_by_frame.keys())`: the distinct frames, ascending. -/
def frameKeys (ds : List Detector) : List Int :=
  (((allDetections ds).map Prod.fst).dedup).insertionSort (· ≤ ·)

/-- `detections_by_frame[f]`: the detections of frame `f` in insertion
order. -/
def detectionsAt (ds : List Detector) (f : Int) : List Vec :=
  (((allDetections ds).filter (fun p => decide (p.1 = f))).map Prod.snd)

/-! ## Stage 1: tracklet formation (lines 164-239) -/

/-- The state threaded through the per-frame loop of Stage 1. -/
structure Stage1State where
  active : List Tracklet
  finished : List Tracklet
  nextId : Nat
deriving DecidableEq, Repr

/-- An assignment solver: given the numbers of rows and columns and the
cost matrix, return the assigned `(row, column)` pairs.  Stands for
`scipy.optimize.linear_sum_assignment` (line 198), which is external to
this repository. -/
abbrev Solver : Type := Nat → Nat → (Nat → Nat → ℚ) → List (Nat × Nat)

/-- The contract on solver output used by the source: assigned rows are
pairwise distinct, assigned columns are pairwise distinct, and indices
are in range. -/
def IsMatching (nr nc : Nat) (pairs : List (Nat × Nat)) : Prop :=
  (pairs.map Prod.fst).Nodup ∧ (pairs.map Prod.snd).Nodup ∧
    ∀ p ∈ pairs, p.1 < nr ∧ p.2 < nc

/-- A solver that always satisfies the matching contract. -/
def MatchingSolver (solver : Solver) : Prop :=
  ∀ nr nc cost, IsMatching nr nc (solver nr nc cost)

/-- A degenerate deterministic solver returning no assignment. -/
def trivial_solver : Solver := fun _ _ _ => []

/-- A deterministic solver assigning row `k` to column `k`. -/
def diag_solver : Solver := fun nr nc _ =>
  (List.range (min nr nc)).map (fun k => (k, k))

/-- The Stage-1 cost matrix entry for `(tracklet i, detection j)` at frame
`f` (lines 176-195): `2 * initial_search_radius` is the "ineligible"
sentinel; eligible pairs hold their gating distance. -/
def formation_cost (nrm : Vec → ℚ) (cfg : Config) (active : List Tracklet)
    (dets : List Vec) (f : Int) (i j : Nat) : ℚ :=
  if 3 < f - (active.getD i default).lastFrame then
    2 * cfg.initial_search_radius
  else if cfg.initial_search_radius ≤
      (active.getD i default).distance_to nrm (dets.getD j (0, 0)) f then
    2 * cfg.initial_search_radius
  else if (active.getD i default).check_velocity_consistency nrm
      (dets.getD j (0, 0)) f cfg.max_velocity_change then
    (active.getD i default).distance_to nrm (dets.getD j (0, 0)) f
  else 2 * cfg.initial_search_radius

/-- Lines 204-208: among the solver's pairs, only those whose cost-matrix
entry is strictly below `initial_search_radius` take effect. -/
def accepted_pairs (cost : Nat → Nat → ℚ) (r : ℚ)
    (pairs : List (Nat × Nat)) : List (Nat × Nat) :=
  pairs.filter (fun p => decide (cost p.1 p.2 < r))

/-- Lines 204-208: extend each accepted tracklet (in place) with its
assigned detection. -/
def extend_all (dets : List Vec) (f : Int) (accepted : List (Nat × Nat))
    (active : List Tracklet) : List Tracklet :=
  accepted.foldl
    (fun acc p =>
      acc.set p.1 ((acc.getD p.1 default).add_detection (dets.getD p.2 (0, 0)) f))
    active

/-- Lines 210-220: the unassigned tracklets that are long enough move to
the finished set (position-indexed, modelling Python object identity). -/
def close_unassigned (m : Int) (assignedT : List Nat)
    (l : List Tracklet) : List Tracklet :=
  (l.enum.filter
    (fun q => decide (q.1 ∉ assignedT ∧ m ≤ (q.2.positions.length : Int)))).map
    Prod.snd

/-- Lines 210-220: the assigned tracklets stay active. -/
def keep_assigned (assignedT : List Nat) (l : List Tracklet) : List Tracklet :=
  (l.enum.filter (fun q => decide (q.1 ∈ assignedT))).map Prod.snd

/-- Lines 222-227: every unassigned detection seeds a new tracklet, ids
counting on from `nextId`. -/
def spawn_new (f : Int) (nextId : Nat) (assignedD : List Nat)
    (dets : List Vec) : List Tracklet :=
  ((dets.enum.filter (fun q => decide (q.1 ∉ assignedD))).enum).map
    (fun q => Tracklet.init q.2.2 f (nextId + q.1))

/-- The body of the association branch (lines 174-227), given the accepted
solver pairs: extend, close, keep and spawn. -/
def stage1_step_assoc (cfg : Config) (dets : List Vec) (f : Int)
    (st : Stage1State) (accepted : List (Nat × Nat)) : Stage1State :=
  { active := keep_assigned (accepted.map Prod.fst)
        (extend_all dets f accepted st.active) ++
      spawn_new f st.nextId (accepted.map Prod.snd) dets
    finished := st.finished ++ close_unassigned cfg.min_tracklet_length
      (accepted.map Prod.fst) (extend_all dets f accepted st.active)
    nextId := st.nextId +
      (spawn_new f st.nextId (accepted.map Prod.snd) dets).length }

/-- One iteration of the Stage-1 per-frame loop (lines 171-234). -/
def stage1_step (nrm : Vec → ℚ) (solver : Solver) (cfg : Config)
    (dets : List Vec) (f : Int) (st : Stage1State) : Stage1State :=
  if 0 < st.active.length ∧ 0 < dets.length then
    stage1_step_assoc cfg dets f st
      (accepted_pairs (formation_cost nrm cfg st.active dets f)
        cfg.initial_search_radius
        (solver st.active.length dets.length
          (formation_cost nrm cfg st.active dets f)))
  else if 0 < dets.length then
    { active := st.active ++
        (dets.enum.map (fun q => Tracklet.init q.2 f (st.nextId + q.1)))
      finished := st.finished
      nextId := st.nextId + dets.length }
  else st

/-- The whole of Stage 1 (lines 164-234). -/
def stage1 (nrm : Vec → ℚ) (solver : Solver) (cfg : Config)
    (ds : List Detector) : Stage1State :=
  (frameKeys ds).foldl
    (fun st f => stage1_step nrm solver cfg (detectionsAt ds f) f st)
    ⟨[], [], 1⟩

/-- Lines 236-239: at end of input the remaining active tracklets are
closed with the same length rule, giving the finalized tracklet set. -/
def finished_tracklets (nrm : Vec → ℚ) (solver : Solver) (cfg : Config)
    (ds : List Detector) : List Tracklet :=
  (stage1 nrm solver cfg ds).finished ++
    (stage1 nrm solver cfg ds).active.filter
      (fun t => decide (cfg.min_tracklet_length ≤ (t.positions.length : Int)))

/-! ## Stage 2: tracklet linking (lines 241-329) -/

/-- Lines 266-284: what happens to the pair `(i, j)` once the
extrapolation `pred_pos` of tracklet `i` is at hand: skip on an undefined
extrapolation or an excessive position error, otherwise the combined
cost. -/
def link_tail (nrm : Vec → ℚ) (cfg : Config) (ti tj : Tracklet) :
    Option Vec → Option ℚ
  | none => none
  | some pred_pos =>
    if cfg.linking_search_radius < nrm (pred_pos - tj.firstPos) then none
    else
      some (nrm (pred_pos - tj.firstPos) +
        cfg.smoothness_weight *
          nrm (ti.get_end_velocity - tj.get_start_velocity))

/-- The directed linking cost for the ordered pair `(i, j)` of finalized
tracklets (lines 249-284); `none` models `np.inf` ("ineligible"). -/
def link_cost (nrm : Vec → ℚ) (cfg : Config) (ts : List Tracklet)
    (i j : Nat) : Option ℚ :=
  if i = j then none
  else if (ts.getD j default).firstFrame ≤ (ts.getD i default).lastFrame then
    none
  else if cfg.max_linking_gap <
      (ts.getD j default).firstFrame - (ts.getD i default).lastFrame then
    none
  else
    link_tail nrm cfg (ts.getD i default) (ts.getD j default)
      ((ts.getD i default).extrapolate_forward
        ((ts.getD j default).firstFrame - (ts.getD i default).lastFrame))

/-- Lines 293-305: scan all pairs in row-major order for the strictly
smallest finite cost among tracklets not yet in `used`; ties keep the
first pair found. -/
def find_min_pair (cost : Nat → Nat → Option ℚ) (n : Nat)
    (used : List Nat) : Option (ℚ × Nat × Nat) :=
  (List.range n).foldl
    (fun best i =>
      if i ∈ used then best
      else
        (List.range n).foldl
          (fun best j =>
            if j ∈ used then best
            else
              match cost i j, best with
              | none, b => b
              | some c, none => some (c, i, j)
              | some c, some (b, bi, bj) =>
                if c < b then some (c, i, j) else some (b, bi, bj))
          best)
    none

/-- Lines 310-321: append `j` to the first chain ending in `i`, or start
the new chain `[i, j]` at the end. -/
def append_link : List (List Nat) → Nat → Nat → List (List Nat)
  | [], i, j => [[i, j]]
  | c :: cs, i, j =>
    if c.getLastD 0 = i then (c ++ [j]) :: cs else c :: append_link cs i j

/-- The greedy linking loop state: the chains built so far and the
consumed tracklets (`linked_tracklets` / `used_tracklets`). -/
structure LinkState where
  chains : List (List Nat)
  used : List Nat
deriving DecidableEq, Repr

/-- Lines 292-324: the `while True` greedy loop, with explicit fuel.  Each
iteration consumes two fresh indices out of `n`, so `n + 1` units of fuel
(as supplied by `linked_chains`) always reach the loop's exit condition. -/
def greedy_links (cost : Nat → Nat → Option ℚ) (n : Nat) :
    Nat → LinkState → LinkState
  | 0, s => s
  | fuel + 1, s =>
    match find_min_pair cost n s.used with
    | none => s
    | some (_, i, j) =>
      greedy_links cost n fuel ⟨append_link s.chains i j, s.used ++ [i, j]⟩

/-- Lines 288-329: the full linking stage, unlinked tracklets becoming
singleton chains. -/
def linked_chains (cost : Nat → Nat → Option ℚ) (n : Nat) : List (List Nat) :=
  let s := greedy_links cost n (n + 1) ⟨[], []⟩
  s.chains ++
    ((List.range n).filter (fun i => decide (i ∉ s.used))).map (fun i => [i])

/-! ## Track assembly (lines 331-378) -/

/-- Lines 336-344: the concatenated `(frame, position)` points of a chain
(`all_frames` and `all_positions` zipped; every tracklet built by Stage 1
has parallel `frames` / `positions` lists). -/
def chain_points (ts : List Tracklet) (chain : List Nat) : List Pt :=
  (chain.map (fun idx =>
    let t := ts.getD idx default
    List.zip t.frames t.positions)).flatten

/-- Lines 354-369: sort a chain's points by frame and package them as the
`k`-th green track (`rows` are the y components, `columns` the x).  Note:
the source's `Track` dataclass (`src/vista/tracks/track.py`, line 17)
declares a required `sensor` field that the call site at lines 359-369
does not pass, so in the frozen source this construction raises a type
error; the model returns the intended record instead.  No theorem below
reaches this construction on a concrete input, and the conservation
bound (C4) only shrinks if fewer tracks are built. -/
def mk_track (k : Nat) (pts : List Pt) : Track :=
  { name := "Track " ++ toString k
    frames := (pts.insertionSort (fun a b => a.1 ≤ b.1)).map Prod.fst
    rows := (pts.insertionSort (fun a b => a.1 ≤ b.1)).map (fun p => p.2.2)
    columns := (pts.insertionSort (fun a b => a.1 ≤ b.1)).map (fun p => p.2.1)
    color := "g"
    marker := "o"
    line_width := 2
    marker_size := 10
    visible := true }

/-- Lines 334-370: keep chains with at least `min_track_length` points,
numbering the surviving tracks consecutively from the accumulator. -/
def chains_to_tracks_from (cfg : Config) (ts : List Tracklet) :
    List (List Nat) → List Track → List Track
  | [], acc => acc
  | chain :: rest, acc =>
    chains_to_tracks_from cfg ts rest
      (if ((chain_points ts chain).length : Int) < cfg.min_track_length then acc
       else acc ++ [mk_track (acc.length + 1) (chain_points ts chain)])

/-- Lines 334-370: convert the linked chains to VISTA tracks. -/
def chains_to_tracks (cfg : Config) (ts : List Tracklet)
    (chains : List (List Nat)) : List Track :=
  chains_to_tracks_from cfg ts chains []

/-- `run_tracklet_tracker(detectors, config)` (lines 105-378). -/
def run_tracklet_tracker (nrm : Vec → ℚ) (solver : Solver)
    (detectors : List Detector) (config : ConfigDict) : Tracker :=
  if (allDetections detectors).length = 0 then
    ⟨(extract_config config).tracker_name, []⟩
  else if (finished_tracklets nrm solver (extract_config config) detectors).length = 0 then
    ⟨(extract_config config).tracker_name, []⟩
  else
    ⟨(extract_config config).tracker_name,
      chains_to_tracks (extract_config config)
        (finished_tracklets nrm solver (extract_config config) detectors)
        (linked_chains
          (link_cost nrm (extract_config config)
            (finished_tracklets nrm solver (extract_config config) detectors))
          (finished_tracklets nrm solver (extract_config config) detectors).length)⟩

/-! ## Point multisets and tracklet well-formedness

Infrastructure shared by the invariant claims: every tracklet built by
Stage 1 keeps `frames` and `positions` parallel, and its `(frame,
position)` points form a multiset that the pipeline only ever rearranges
or discards, never fabricates. -/

/-- Parallel `frames` / `positions` arrays (true of every tracklet the
source constructs). -/
def Tracklet.wf (t : Tracklet) : Prop := t.frames.length = t.positions.length

/-- The `(frame, position)` points recorded by a tracklet. -/
def tracklet_points (t : Tracklet) : List Pt := List.zip t.frames t.positions

/-- The multiset of points over a list of tracklets. -/
def points_of (l : List Tracklet) : Multiset Pt :=
  (l : Multiset Tracklet).bind (fun t => (tracklet_points t : Multiset Pt))

theorem Tracklet.wf_init (d : Vec) (f : Int) (i : Nat) :
    (Tracklet.init d f i).wf := rfl

theorem Tracklet.wf_add {t : Tracklet} (h : t.wf) (d : Vec) (f : Int) :
    (t.add_detection d f).wf := by
  simp [Tracklet.wf, Tracklet.add_detection] at h ⊢
  omega

theorem tracklet_points_init (d : Vec) (f : Int) (i : Nat) :
    tracklet_points (Tracklet.init d f i) = [(f, d)] := rfl

theorem tracklet_points_add {t : Tracklet} (h : t.wf) (d : Vec) (f : Int) :
    tracklet_points (t.add_detection d f) = tracklet_points t ++ [(f, d)] := by
  unfold tracklet_points Tracklet.add_detection
  exact List.zip_append h

theorem points_of_nil : points_of [] = 0 := rfl

theorem points_of_cons (t : Tracklet) (l : List Tracklet) :
    points_of (t :: l) = (tracklet_points t : Multiset Pt) + points_of l := by
  simp [points_of]

theorem points_of_append (a b : List Tracklet) :
    points_of (a ++ b) = points_of a + points_of b := by
  simp [points_of]

/-- `Multiset.bind` is monotone in the multiset argument. -/
theorem bind_mono {α β : Type _} {s t : Multiset α} (f : α → Multiset β)
    (h : s ≤ t) : s.bind f ≤ t.bind f := by
  obtain ⟨u, rfl⟩ := Multiset.le_iff_exists_add.1 h
  rw [Multiset.add_bind]
  exact Multiset.le_add_right _ _

theorem points_of_sublist {a b : List Tracklet} (h : a.Sublist b) :
    points_of a ≤ points_of b :=
  bind_mono _ (Multiset.coe_le.2 h.subperm)

/-- Replacing the `i`-th tracklet trades its points for the new ones. -/
theorem points_of_set (l : List Tracklet) (i : Nat) (t' : Tracklet)
    (h : i < l.length) :
    points_of (l.set i t') + (tracklet_points (l.getD i default) : Multiset Pt) =
      points_of l + (tracklet_points t' : Multiset Pt) := by
  induction l generalizing i with
  | nil => simp at h
  | cons hd tl ih =>
    cases i with
    | zero =>
      simp only [List.set, List.getD_cons_zero, points_of_cons]
      abel
    | succ k =>
      simp only [List.set, List.getD_cons_succ, points_of_cons]
      have hk : k < tl.length := by simpa using h
      calc (tracklet_points hd : Multiset Pt) + points_of (tl.set k t') +
            (tracklet_points (tl.getD k default) : Multiset Pt)
          = (tracklet_points hd : Multiset Pt) +
            (points_of (tl.set k t') +
              (tracklet_points (tl.getD k default) : Multiset Pt)) := by
            rw [add_assoc]
        _ = (tracklet_points hd : Multiset Pt) +
            (points_of tl + (tracklet_points t' : Multiset Pt)) := by
            rw [ih k hk]
        _ = (tracklet_points hd : Multiset Pt) + points_of tl +
            (tracklet_points t' : Multiset Pt) := by
            rw [add_assoc]

/-! ## Lemmas about the Stage-1 extension fold (lines 204-208) -/

theorem extend_all_nil (dets : List Vec) (f : Int) (acc : List Tracklet) :
    extend_all dets f [] acc = acc := rfl

theorem extend_all_cons (dets : List Vec) (f : Int) (p : Nat × Nat)
    (rest : List (Nat × Nat)) (acc : List Tracklet) :
    extend_all dets f (p :: rest) acc =
      extend_all dets f rest
        (acc.set p.1 ((acc.getD p.1 default).add_detection (dets.getD p.2 (0, 0)) f)) :=
  rfl

theorem extend_all_length (dets : List Vec) (f : Int) :
    ∀ (accepted : List (Nat × Nat)) (acc : List Tracklet),
      (extend_all dets f accepted acc).length = acc.length := by
  intro accepted
  induction accepted with
  | nil => intro acc; rfl
  | cons p rest ih =>
    intro acc
    rw [extend_all_cons, ih, List.length_set]

/-- Every tracklet after the extension fold is either an original one or a
one-step extension (by this frame's detection) of the original tracklet at
the assigned row, provided the assigned rows are distinct. -/
theorem extend_all_mem_cases (dets : List Vec) (f : Int) :
    ∀ (accepted : List (Nat × Nat)) (acc : List Tracklet),
      (accepted.map Prod.fst).Nodup →
      ∀ t ∈ extend_all dets f accepted acc,
        t ∈ acc ∨ ∃ p ∈ accepted, p.1 < acc.length ∧
          t = (acc.getD p.1 default).add_detection (dets.getD p.2 (0, 0)) f := by
  intro accepted
  induction accepted with
  | nil => intro acc _ t ht; exact Or.inl ht
  | cons p rest ih =>
    intro acc hnd t ht
    rw [List.map_cons, List.nodup_cons] at hnd
    obtain ⟨hp1, hnd'⟩ := hnd
    rw [extend_all_cons] at ht
    by_cases hp : p.1 < acc.length
    · rcases ih _ hnd' t ht with h | ⟨q, hq, hqlen, hqeq⟩
      · rcases List.mem_or_eq_of_mem_set h with h' | h'
        · exact Or.inl h'
        · exact Or.inr ⟨p, List.mem_cons_self _ _, hp, h'⟩
      · have hqp : q.1 ≠ p.1 := by
          intro he
          exact hp1 (he ▸ List.mem_map_of_mem Prod.fst hq)
        have hlen : q.1 < acc.length := by
          rwa [List.length_set] at hqlen
        have hgd : (acc.set p.1
            ((acc.getD p.1 default).add_detection (dets.getD p.2 (0, 0)) f)).getD q.1 default =
            acc.getD q.1 default := by
          simp only [List.getD_eq_getElem?_getD]
          rw [List.getElem?_set_ne (Ne.symm hqp)]
        rw [hgd] at hqeq
        exact Or.inr ⟨q, List.mem_cons_of_mem _ hq, hlen, hqeq⟩
    · rw [List.set_eq_of_length_le (by omega)] at ht
      rcases ih _ hnd' t ht with h | ⟨q, hq, hqlen, hqeq⟩
      · exact Or.inl h
      · exact Or.inr ⟨q, List.mem_cons_of_mem _ hq, hqlen, hqeq⟩

/-- The extension fold preserves well-formedness and adds at most the
accepted detections' points. -/
theorem extend_all_points (dets : List Vec) (f : Int) :
    ∀ (accepted : List (Nat × Nat)) (acc : List Tracklet),
      (∀ t ∈ acc, t.wf) →
      (∀ t ∈ extend_all dets f accepted acc, t.wf) ∧
        points_of (extend_all dets f accepted acc) ≤
          points_of acc +
            ((accepted.map (fun p => ((f, dets.getD p.2 (0, 0)) : Pt))) : Multiset Pt) := by
  intro accepted
  induction accepted with
  | nil =>
    intro acc hwf
    exact ⟨hwf, by simp [extend_all_nil]⟩
  | cons p rest ih =>
    intro acc hwf
    rw [extend_all_cons]
    by_cases hp : p.1 < acc.length
    · have hmem : acc.getD p.1 default ∈ acc := by
        rw [List.getD_eq_getElem _ _ hp]
        exact List.getElem_mem _
      have hwf' : ∀ t ∈ acc.set p.1
          ((acc.getD p.1 default).add_detection (dets.getD p.2 (0, 0)) f), t.wf := by
        intro t ht
        rcases List.mem_or_eq_of_mem_set ht with h | h
        · exact hwf t h
        · exact h ▸ Tracklet.wf_add (hwf _ hmem) _ _
      obtain ⟨h1, h2⟩ := ih _ hwf'
      refine ⟨h1, le_trans h2 ?_⟩
      have hset : points_of (acc.set p.1
          ((acc.getD p.1 default).add_detection (dets.getD p.2 (0, 0)) f)) =
          points_of acc + {((f, dets.getD p.2 (0, 0)) : Pt)} := by
        have he := points_of_set acc p.1
          ((acc.getD p.1 default).add_detection (dets.getD p.2 (0, 0)) f) hp
        rw [tracklet_points_add (hwf _ hmem)] at he
        rw [← Multiset.coe_add] at he
        have hre : points_of acc +
            ((tracklet_points (acc.getD p.1 default) : Multiset Pt) +
              ([((f, dets.getD p.2 (0, 0)) : Pt)] : Multiset Pt)) =
            (points_of acc + {((f, dets.getD p.2 (0, 0)) : Pt)}) +
              (tracklet_points (acc.getD p.1 default) : Multiset Pt) := by
          have : ([((f, dets.getD p.2 (0, 0)) : Pt)] : Multiset Pt) =
              {((f, dets.getD p.2 (0, 0)) : Pt)} := rfl
          rw [this]
          abel
        rw [hre] at he
        exact add_right_cancel he
      rw [hset, List.map_cons]
      rw [← Multiset.cons_coe, Multiset.add_cons]
      have : (points_of acc + {((f, dets.getD p.2 (0, 0)) : Pt)}) +
          ((rest.map (fun q => ((f, dets.getD q.2 (0, 0)) : Pt))) : Multiset Pt) =
          ((f, dets.getD p.2 (0, 0)) : Pt) ::ₘ
            (points_of acc +
              ((rest.map (fun q => ((f, dets.getD q.2 (0, 0)) : Pt))) : Multiset Pt)) := by
        rw [← Multiset.singleton_add]
        abel
      rw [this]
    · rw [List.set_eq_of_length_le (by omega)]
      obtain ⟨h1, h2⟩ := ih acc hwf
      refine ⟨h1, le_trans h2 ?_⟩
      rw [List.map_cons, ← Multiset.cons_coe, Multiset.add_cons]
      exact le_trans (le_refl _) (Multiset.le_cons_self _ _)

/-! ## Index lists and sub-multisets -/

theorem map_getD_range {α : Type _} (xs : List α) (d : α) :
    (List.range xs.length).map (fun i => xs.getD i d) = xs := by
  induction xs with
  | nil => rfl
  | cons x t ih =>
    rw [List.length_cons, List.range_succ_eq_map, List.map_cons, List.map_map]
    exact congrArg (x :: ·) ih

theorem coe_le_range {idxs : List Nat} {n : Nat} (hnd : idxs.Nodup)
    (hlt : ∀ i ∈ idxs, i < n) :
    (idxs : Multiset Nat) ≤ (List.range n : Multiset Nat) := by
  rw [Multiset.le_iff_count]
  intro a
  by_cases ha : a ∈ idxs
  · rw [Multiset.coe_count, Multiset.coe_count,
      List.count_eq_one_of_mem hnd ha,
      List.count_eq_one_of_mem (List.nodup_range n) (List.mem_range.2 (hlt a ha))]
  · rw [Multiset.coe_count, List.count_eq_zero_of_not_mem ha]
    exact Nat.zero_le _

theorem map_getD_le {α : Type _} (xs : List α) (d : α) (idxs : List Nat)
    (hnd : idxs.Nodup) (hlt : ∀ i ∈ idxs, i < xs.length) :
    ((idxs.map (fun i => xs.getD i d)) : Multiset α) ≤ (xs : Multiset α) := by
  have h2 := Multiset.map_le_map (f := fun i => xs.getD i d) (coe_le_range hnd hlt)
  rwa [Multiset.map_coe, Multiset.map_coe, map_getD_range] at h2

theorem filter_add_filter_le {α : Type _} (l : List α) (p q : α → Bool)
    (h : ∀ x ∈ l, ¬(p x = true ∧ q x = true)) :
    ((l.filter p : List α) : Multiset α) + ((l.filter q : List α) : Multiset α) ≤
      (l : Multiset α) := by
  induction l with
  | nil => simp
  | cons x t ih =>
    have ht : ∀ y ∈ t, ¬(p y = true ∧ q y = true) :=
      fun y hy => h y (List.mem_cons_of_mem _ hy)
    by_cases hp : p x = true
    · have hq : ¬ q x = true := fun hq => h x (List.mem_cons_self _ _) ⟨hp, hq⟩
      rw [List.filter_cons_of_pos hp, List.filter_cons_of_neg hq,
        ← Multiset.cons_coe, ← Multiset.cons_coe, Multiset.cons_add]
      exact Multiset.cons_le_cons _ (ih ht)
    · rw [List.filter_cons_of_neg hp]
      by_cases hq : q x = true
      · rw [List.filter_cons_of_pos hq, ← Multiset.cons_coe, ← Multiset.cons_coe,
          Multiset.add_cons]
        exact Multiset.cons_le_cons _ (ih ht)
      · rw [List.filter_cons_of_neg hq, ← Multiset.cons_coe]
        exact le_trans (ih ht) (Multiset.le_cons_self _ _)

/-! ## Lemmas about closing, keeping and spawning (lines 210-234) -/

theorem close_unassigned_mem (m : Int) (aT : List Nat) (l : List Tracklet) :
    ∀ t ∈ close_unassigned m aT l,
      t ∈ l ∧ m ≤ (t.positions.length : Int) := by
  intro t ht
  unfold close_unassigned at ht
  obtain ⟨q, hq, rfl⟩ := List.mem_map.1 ht
  rw [List.mem_filter] at hq
  obtain ⟨hqe, hqp⟩ := hq
  have hprop := of_decide_eq_true hqp
  obtain ⟨hlen, heq⟩ := List.mem_enum hqe
  exact ⟨heq ▸ List.getElem_mem hlen, hprop.2⟩

theorem keep_assigned_mem (aT : List Nat) (l : List Tracklet) :
    ∀ t ∈ keep_assigned aT l, t ∈ l := by
  intro t ht
  unfold keep_assigned at ht
  obtain ⟨q, hq, rfl⟩ := List.mem_map.1 ht
  rw [List.mem_filter] at hq
  obtain ⟨hlen, heq⟩ := List.mem_enum hq.1
  exact heq ▸ List.getElem_mem hlen

theorem spawn_new_mem (f : Int) (nid : Nat) (aD : List Nat) (dets : List Vec) :
    ∀ t ∈ spawn_new f nid aD dets, ∃ d i, t = Tracklet.init d f i := by
  intro t ht
  unfold spawn_new at ht
  obtain ⟨q, -, rfl⟩ := List.mem_map.1 ht
  exact ⟨q.2.2, nid + q.1, rfl⟩

theorem points_of_map_snd (le : List (Nat × Tracklet)) :
    points_of (le.map Prod.snd) =
      (le : Multiset (Nat × Tracklet)).bind
        (fun q => (tracklet_points q.2 : Multiset Pt)) := by
  induction le with
  | nil => rfl
  | cons q rest ih =>
    simp only [List.map_cons, points_of_cons, ← Multiset.cons_coe,
      Multiset.cons_bind]
    rw [ih]

/-- The tracklets kept active and the tracklets closed this frame
partition (a sublist of) the extended list, so their points are bounded by
its points. -/
theorem keep_close_points (m : Int) (aT : List Nat) (l : List Tracklet) :
    points_of (keep_assigned aT l) + points_of (close_unassigned m aT l) ≤
      points_of l := by
  unfold keep_assigned close_unassigned
  rw [points_of_map_snd, points_of_map_snd]
  have hdisj : ∀ q ∈ l.enum,
      ¬((fun q : Nat × Tracklet => decide (q.1 ∈ aT)) q = true ∧
        (fun q : Nat × Tracklet =>
          decide (q.1 ∉ aT ∧ m ≤ (q.2.positions.length : Int))) q = true) := by
    intro q _ ⟨h1, h2⟩
    exact (of_decide_eq_true h2).1 (of_decide_eq_true h1)
  have hle := filter_add_filter_le l.enum _ _ hdisj
  have hb := bind_mono (fun q : Nat × Tracklet =>
    (tracklet_points q.2 : Multiset Pt)) hle
  rw [Multiset.add_bind] at hb
  refine le_trans hb ?_
  have : ((l.enum : List (Nat × Tracklet)) : Multiset (Nat × Tracklet)).bind
      (fun q => (tracklet_points q.2 : Multiset Pt)) = points_of l := by
    rw [← points_of_map_snd, List.enum_map_snd]
  exact le_of_eq this

theorem points_of_init_map {α : Type _} (F : α → Tracklet) (G : α → Pt)
    (hF : ∀ a, tracklet_points (F a) = [G a]) (l : List α) :
    points_of (l.map F) = ((l.map G) : Multiset Pt) := by
  induction l with
  | nil => rfl
  | cons a rest ih =>
    simp only [List.map_cons, points_of_cons, hF, ih, ← Multiset.cons_coe,
      ← Multiset.singleton_add]
    rfl

theorem spawn_new_points (f : Int) (nid : Nat) (aD : List Nat)
    (dets : List Vec) :
    points_of (spawn_new f nid aD dets) =
      (((dets.enum.filter (fun q => decide (q.1 ∉ aD))).map
        (fun q => ((f, q.2) : Pt))) : Multiset Pt) := by
  unfold spawn_new
  rw [points_of_init_map (fun q : Nat × (Nat × Vec) => Tracklet.init q.2.2 f (nid + q.1))
    (fun q : Nat × (Nat × Vec) => ((f, q.2.2) : Pt))
    (fun a => tracklet_points_init a.2.2 f (nid + a.1))]
  congr 1
  have hfe : (fun (q : Nat × (Nat × Vec)) => ((f, q.2.2) : Pt)) =
      (fun (r : Nat × Vec) => ((f, r.2) : Pt)) ∘ Prod.snd := rfl
  rw [hfe, ← List.map_map, List.enum_map_snd]

/-- The accepted detections plus the spawned (unassigned) detections of one
frame are a sub-multiset of that frame's detections. -/
theorem accepted_spawn_le (dets : List Vec) (f : Int)
    (accepted : List (Nat × Nat)) (hnd : (accepted.map Prod.snd).Nodup)
    (hlt : ∀ p ∈ accepted, p.2 < dets.length) :
    ((accepted.map (fun p => ((f, dets.getD p.2 (0, 0)) : Pt))) : Multiset Pt) +
      (((dets.enum.filter
          (fun q => decide (q.1 ∉ accepted.map Prod.snd))).map
        (fun q => ((f, q.2) : Pt))) : Multiset Pt) ≤
      ((dets.map (fun d => ((f, d) : Pt))) : Multiset Pt) := by
  have h1 : accepted.map (fun p => ((f, dets.getD p.2 (0, 0)) : Pt)) =
      (accepted.map Prod.snd).map (fun i => ((f, dets.getD i (0, 0)) : Pt)) := by
    rw [List.map_map]
    rfl
  have h2 : (dets.enum.filter
        (fun q => decide (q.1 ∉ accepted.map Prod.snd))).map
      (fun q => ((f, q.2) : Pt)) =
      ((dets.enum.filter
          (fun q => decide (q.1 ∉ accepted.map Prod.snd))).map Prod.fst).map
        (fun i => ((f, dets.getD i (0, 0)) : Pt)) := by
    rw [List.map_map]
    apply List.map_congr_left
    intro q hq
    rw [List.mem_filter] at hq
    obtain ⟨hlen, heq⟩ := List.mem_enum hq.1
    simp only [Function.comp]
    rw [List.getD_eq_getElem _ _ hlen, ← heq]
  rw [h1, h2, Multiset.coe_add, ← List.map_append]
  have hcomp : (fun i => ((f, dets.getD i (0, 0)) : Pt)) =
      (fun d => ((f, d) : Pt)) ∘ (fun i => dets.getD i (0, 0)) := rfl
  rw [hcomp, ← List.map_map]
  have hsub : (((List.map Prod.snd accepted ++
      List.map Prod.fst (List.filter
        (fun q => decide (q.1 ∉ List.map Prod.snd accepted)) dets.enum)).map
      (fun i => dets.getD i (0, 0))) : Multiset Vec) ≤ (dets : Multiset Vec) := by
    apply map_getD_le
    · rw [List.nodup_append]
      refine ⟨hnd, ?_, ?_⟩
      · apply List.Nodup.sublist
          (List.Sublist.map Prod.fst (List.filter_sublist dets.enum))
        rw [List.enum_map_fst]
        exact List.nodup_range _
      · intro i hi hi''
        obtain ⟨q, hq, rfl⟩ := List.mem_map.1 hi''
        rw [List.mem_filter] at hq
        exact (of_decide_eq_true hq.2) hi
    · intro i hi
      rcases List.mem_append.1 hi with hi | hi
      · obtain ⟨p, hp, rfl⟩ := List.mem_map.1 hi
        exact hlt p hp
      · obtain ⟨q, hq, rfl⟩ := List.mem_map.1 hi
        rw [List.mem_filter] at hq
        exact (List.mem_enum hq.1).1
  have hm := Multiset.map_le_map (f := fun d => ((f, d) : Pt)) hsub
  rw [Multiset.map_coe, Multiset.map_coe] at hm
  exact hm

/-! ## The Stage-1 loop invariant -/

theorem sorted_append_singleton {l : List Int} {a : Int}
    (h : l.Sorted (· < ·)) (h2 : ∀ x ∈ l, x < a) :
    (l ++ [a]).Sorted (· < ·) := by
  rw [List.Sorted, List.pairwise_append]
  exact ⟨h, List.pairwise_singleton _ _, by simpa using h2⟩

theorem add_detection_frames (t : Tracklet) (d : Vec) (f : Int) :
    (t.add_detection d f).frames = t.frames ++ [f] := rfl

theorem init_frames (d : Vec) (f : Int) (i : Nat) :
    (Tracklet.init d f i).frames = [f] := rfl

/-- The invariant carried through Stage 1: all tracklets are well-formed
with strictly increasing frames, every active tracklet lives strictly
before all unprocessed frames, and every finished tracklet meets the
minimum length. -/
structure S1Inv (cfg : Config) (st : Stage1State) (fs : List Int) : Prop where
  wfA : ∀ t ∈ st.active, t.wf
  wfF : ∀ t ∈ st.finished, t.wf
  sortedA : ∀ t ∈ st.active, t.frames.Sorted (· < ·)
  boundA : ∀ t ∈ st.active, ∀ x ∈ t.frames, ∀ g ∈ fs, x < g
  sortedF : ∀ t ∈ st.finished, t.frames.Sorted (· < ·)
  lenF : ∀ t ∈ st.finished, cfg.min_tracklet_length ≤ (t.positions.length : Int)

/-- The association branch preserves the invariant and adds at most this
frame's detection points, for any accepted pair list that is a partial
matching. -/
theorem stage1_step_assoc_inv (cfg : Config) (dets : List Vec) (f : Int)
    (fs' : List Int) (hnext : ∀ g ∈ fs', f < g) (st : Stage1State)
    (accepted : List (Nat × Nat))
    (hrowN : (accepted.map Prod.fst).Nodup)
    (hcolN : (accepted.map Prod.snd).Nodup)
    (hbR : ∀ p ∈ accepted, p.1 < st.active.length)
    (hbC : ∀ p ∈ accepted, p.2 < dets.length)
    (hinv : S1Inv cfg st (f :: fs')) :
    S1Inv cfg (stage1_step_assoc cfg dets f st accepted) fs' ∧
      points_of (stage1_step_assoc cfg dets f st accepted).active +
          points_of (stage1_step_assoc cfg dets f st accepted).finished ≤
        points_of st.active + points_of st.finished +
          ((dets.map (fun d => ((f, d) : Pt))) : Multiset Pt) := by
  obtain ⟨hwfExt, hptsExt⟩ := extend_all_points dets f accepted st.active hinv.wfA
  -- every extended tracklet is sorted, bounded by f, and well-formed
  have hextProps : ∀ t ∈ extend_all dets f accepted st.active,
      t.frames.Sorted (· < ·) ∧ (∀ x ∈ t.frames, x ≤ f) := by
    intro t ht
    rcases extend_all_mem_cases dets f accepted st.active hrowN t ht with
      h | ⟨p, hp, hplen, rfl⟩
    · refine ⟨hinv.sortedA t h, fun x hx => ?_⟩
      exact le_of_lt (hinv.boundA t h x hx f (List.mem_cons_self _ _))
    · have hu : st.active.getD p.1 default ∈ st.active := by
        rw [List.getD_eq_getElem _ _ hplen]
        exact List.getElem_mem _
      rw [add_detection_frames]
      constructor
      · exact sorted_append_singleton (hinv.sortedA _ hu)
          (fun x hx => hinv.boundA _ hu x hx f (List.mem_cons_self _ _))
      · intro x hx
        rcases List.mem_append.1 hx with hx | hx
        · exact le_of_lt (hinv.boundA _ hu x hx f (List.mem_cons_self _ _))
        · simp only [List.mem_singleton] at hx
          exact le_of_eq hx
  have hextBound : ∀ t ∈ extend_all dets f accepted st.active,
      ∀ x ∈ t.frames, ∀ g ∈ fs', x < g := by
    intro t ht x hx g hg
    exact lt_of_le_of_lt ((hextProps t ht).2 x hx) (hnext g hg)
  refine ⟨⟨?_, ?_, ?_, ?_, ?_, ?_⟩, ?_⟩
  · -- wfA
    intro t ht
    rcases List.mem_append.1 ht with h | h
    · exact hwfExt t (keep_assigned_mem _ _ t h)
    · obtain ⟨d, i, rfl⟩ := spawn_new_mem _ _ _ _ t h
      exact Tracklet.wf_init d f i
  · -- wfF
    intro t ht
    rcases List.mem_append.1 ht with h | h
    · exact hinv.wfF t h
    · exact hwfExt t (close_unassigned_mem _ _ _ t h).1
  · -- sortedA
    intro t ht
    rcases List.mem_append.1 ht with h | h
    · exact (hextProps t (keep_assigned_mem _ _ t h)).1
    · obtain ⟨d, i, rfl⟩ := spawn_new_mem _ _ _ _ t h
      rw [init_frames]
      exact List.sorted_singleton _
  · -- boundA
    intro t ht x hx g hg
    rcases List.mem_append.1 ht with h | h
    · exact hextBound t (keep_assigned_mem _ _ t h) x hx g hg
    · obtain ⟨d, i, rfl⟩ := spawn_new_mem _ _ _ _ t h
      rw [init_frames, List.mem_singleton] at hx
      exact hx ▸ hnext g hg
  · -- sortedF
    intro t ht
    rcases List.mem_append.1 ht with h | h
    · exact hinv.sortedF t h
    · exact (hextProps t (close_unassigned_mem _ _ _ t h).1).1
  · -- lenF
    intro t ht
    rcases List.mem_append.1 ht with h | h
    · exact hinv.lenF t h
    · exact (close_unassigned_mem _ _ _ t h).2
  · -- points
    show points_of (keep_assigned _ _ ++ spawn_new _ _ _ _) +
        points_of (st.finished ++ close_unassigned _ _ _) ≤ _
    rw [points_of_append, points_of_append, spawn_new_points]
    calc points_of (keep_assigned (accepted.map Prod.fst)
            (extend_all dets f accepted st.active)) +
          (((dets.enum.filter
              (fun q => decide (q.1 ∉ accepted.map Prod.snd))).map
            (fun q => ((f, q.2) : Pt))) : Multiset Pt) +
          (points_of st.finished +
            points_of (close_unassigned cfg.min_tracklet_length
              (accepted.map Prod.fst) (extend_all dets f accepted st.active)))
        = (points_of (keep_assigned (accepted.map Prod.fst)
              (extend_all dets f accepted st.active)) +
            points_of (close_unassigned cfg.min_tracklet_length
              (accepted.map Prod.fst) (extend_all dets f accepted st.active))) +
          ((((dets.enum.filter
              (fun q => decide (q.1 ∉ accepted.map Prod.snd))).map
            (fun q => ((f, q.2) : Pt))) : Multiset Pt) +
            points_of st.finished) := by abel
      _ ≤ points_of (extend_all dets f accepted st.active) +
          ((((dets.enum.filter
              (fun q => decide (q.1 ∉ accepted.map Prod.snd))).map
            (fun q => ((f, q.2) : Pt))) : Multiset Pt) +
            points_of st.finished) :=
          add_le_add_right (keep_close_points _ _ _) _
      _ ≤ (points_of st.active +
            ((accepted.map (fun p => ((f, dets.getD p.2 (0, 0)) : Pt))) : Multiset Pt)) +
          ((((dets.enum.filter
              (fun q => decide (q.1 ∉ accepted.map Prod.snd))).map
            (fun q => ((f, q.2) : Pt))) : Multiset Pt) +
            points_of st.finished) := add_le_add_right hptsExt _
      _ = (points_of st.active + points_of st.finished) +
          (((accepted.map (fun p => ((f, dets.getD p.2 (0, 0)) : Pt))) : Multiset Pt) +
            (((dets.enum.filter
              (fun q => decide (q.1 ∉ accepted.map Prod.snd))).map
            (fun q => ((f, q.2) : Pt))) : Multiset Pt)) := by abel
      _ ≤ (points_of st.active + points_of st.finished) +
          ((dets.map (fun d => ((f, d) : Pt))) : Multiset Pt) :=
          add_le_add_left (accepted_spawn_le dets f accepted hcolN hbC) _
      _ = points_of st.active + points_of st.finished +
          ((dets.map (fun d => ((f, d) : Pt))) : Multiset Pt) := by abel

/-- One full Stage-1 step preserves the invariant and adds at most this
frame's detection points. -/
theorem stage1_step_inv (nrm : Vec → ℚ) (solver : Solver)
    (hsolver : MatchingSolver solver) (cfg : Config) (dets : List Vec)
    (f : Int) (fs' : List Int) (hnext : ∀ g ∈ fs', f < g) (st : Stage1State)
    (hinv : S1Inv cfg st (f :: fs')) :
    S1Inv cfg (stage1_step nrm solver cfg dets f st) fs' ∧
      points_of (stage1_step nrm solver cfg dets f st).active +
          points_of (stage1_step nrm solver cfg dets f st).finished ≤
        points_of st.active + points_of st.finished +
          ((dets.map (fun d => ((f, d) : Pt))) : Multiset Pt) := by
  by_cases hA : 0 < st.active.length ∧ 0 < dets.length
  · have hstep : stage1_step nrm solver cfg dets f st =
        stage1_step_assoc cfg dets f st
          (accepted_pairs (formation_cost nrm cfg st.active dets f)
            cfg.initial_search_radius
            (solver st.active.length dets.length
              (formation_cost nrm cfg st.active dets f))) := by
      unfold stage1_step
      rw [if_pos hA]
    rw [hstep]
    obtain ⟨hrow, hcol, hbounds⟩ := hsolver st.active.length dets.length
      (formation_cost nrm cfg st.active dets f)
    have hsub : (accepted_pairs (formation_cost nrm cfg st.active dets f)
        cfg.initial_search_radius
        (solver st.active.length dets.length
          (formation_cost nrm cfg st.active dets f))).Sublist
        (solver st.active.length dets.length
          (formation_cost nrm cfg st.active dets f)) :=
      List.filter_sublist _
    refine stage1_step_assoc_inv cfg dets f fs' hnext st _ ?_ ?_ ?_ ?_ hinv
    · exact (List.Sublist.map Prod.fst hsub).nodup hrow
    · exact (List.Sublist.map Prod.snd hsub).nodup hcol
    · exact fun p hp => (hbounds p (hsub.mem hp)).1
    · exact fun p hp => (hbounds p (hsub.mem hp)).2
  · by_cases hB : 0 < dets.length
    · have hstep : stage1_step nrm solver cfg dets f st =
          { active := st.active ++
              (dets.enum.map (fun q => Tracklet.init q.2 f (st.nextId + q.1)))
            finished := st.finished
            nextId := st.nextId + dets.length } := by
        unfold stage1_step
        rw [if_neg hA, if_pos hB]
      rw [hstep]
      have hspawnP : points_of
          (dets.enum.map (fun q => Tracklet.init q.2 f (st.nextId + q.1))) =
          ((dets.map (fun d => ((f, d) : Pt))) : Multiset Pt) := by
        rw [points_of_init_map (fun q : Nat × Vec => Tracklet.init q.2 f (st.nextId + q.1))
          (fun q : Nat × Vec => ((f, q.2) : Pt))
          (fun a => tracklet_points_init a.2 f (st.nextId + a.1))]
        congr 1
        have hfe : (fun (q : Nat × Vec) => ((f, q.2) : Pt)) =
            (fun (d : Vec) => ((f, d) : Pt)) ∘ Prod.snd := rfl
        rw [hfe, ← List.map_map, List.enum_map_snd]
      refine ⟨⟨?_, hinv.wfF, ?_, ?_, hinv.sortedF, hinv.lenF⟩, ?_⟩
      · intro t ht
        rcases List.mem_append.1 ht with h | h
        · exact hinv.wfA t h
        · obtain ⟨q, -, rfl⟩ := List.mem_map.1 h
          exact Tracklet.wf_init _ _ _
      · intro t ht
        rcases List.mem_append.1 ht with h | h
        · exact hinv.sortedA t h
        · obtain ⟨q, -, rfl⟩ := List.mem_map.1 h
          rw [init_frames]
          exact List.sorted_singleton _
      · intro t ht x hx g hg
        rcases List.mem_append.1 ht with h | h
        · exact hinv.boundA t h x hx g (List.mem_cons_of_mem _ hg)
        · obtain ⟨q, -, rfl⟩ := List.mem_map.1 h
          rw [init_frames, List.mem_singleton] at hx
          exact hx ▸ hnext g hg
      · show points_of (st.active ++ _) + points_of st.finished ≤ _
        rw [points_of_append, hspawnP]
        exact le_of_eq (by abel)
    · have hstep : stage1_step nrm solver cfg dets f st = st := by
        unfold stage1_step
        rw [if_neg hA, if_neg hB]
      rw [hstep]
      refine ⟨⟨hinv.wfA, hinv.wfF, hinv.sortedA, ?_, hinv.sortedF, hinv.lenF⟩, ?_⟩
      · exact fun t ht x hx g hg => hinv.boundA t ht x hx g (List.mem_cons_of_mem _ hg)
      · exact self_le_add_right _ _

/-- Folding Stage 1 over a strictly sorted frame list keeps the invariant
and accumulates at most all the processed detections' points. -/
theorem stage1_fold_inv (nrm : Vec → ℚ) (solver : Solver)
    (hsolver : MatchingSolver solver) (cfg : Config) (ds : List Detector) :
    ∀ (fs : List Int) (st : Stage1State), fs.Sorted (· < ·) →
      S1Inv cfg st fs →
      S1Inv cfg (fs.foldl
        (fun st f => stage1_step nrm solver cfg (detectionsAt ds f) f st) st) [] ∧
      points_of (fs.foldl
          (fun st f => stage1_step nrm solver cfg (detectionsAt ds f) f st) st).active +
        points_of (fs.foldl
          (fun st f => stage1_step nrm solver cfg (detectionsAt ds f) f st) st).finished ≤
        points_of st.active + points_of st.finished +
          ((fs.map (fun f =>
            (((detectionsAt ds f).map (fun d => ((f, d) : Pt))) : Multiset Pt))).sum) := by
  intro fs
  induction fs with
  | nil =>
    intro st _ hinv
    exact ⟨hinv, by simp⟩
  | cons f fs' ih =>
    intro st hsorted hinv
    rw [List.sorted_cons] at hsorted
    obtain ⟨hnext, hsorted'⟩ := hsorted
    obtain ⟨hstep, hpts⟩ := stage1_step_inv nrm solver hsolver cfg
      (detectionsAt ds f) f fs' hnext st hinv
    obtain ⟨hfin, hptsF⟩ := ih (stage1_step nrm solver cfg (detectionsAt ds f) f st)
      hsorted' hstep
    rw [List.foldl_cons]
    refine ⟨hfin, le_trans hptsF ?_⟩
    rw [List.map_cons, List.sum_cons]
    calc points_of (stage1_step nrm solver cfg (detectionsAt ds f) f st).active +
          points_of (stage1_step nrm solver cfg (detectionsAt ds f) f st).finished +
          ((fs'.map (fun f =>
            (((detectionsAt ds f).map (fun d => ((f, d) : Pt))) : Multiset Pt))).sum)
        ≤ (points_of st.active + points_of st.finished +
            (((detectionsAt ds f).map (fun d => ((f, d) : Pt))) : Multiset Pt)) +
          ((fs'.map (fun f =>
            (((detectionsAt ds f).map (fun d => ((f, d) : Pt))) : Multiset Pt))).sum) :=
          add_le_add_right hpts _
      _ = points_of st.active + points_of st.finished +
          ((((detectionsAt ds f).map (fun d => ((f, d) : Pt))) : Multiset Pt) +
            ((fs'.map (fun f =>
              (((detectionsAt ds f).map (fun d => ((f, d) : Pt))) : Multiset Pt))).sum)) := by
          abel

theorem frameKeys_nodup (ds : List Detector) : (frameKeys ds).Nodup :=
  ((List.perm_insertionSort _ _).nodup_iff).2 (List.nodup_dedup _)

theorem frameKeys_sorted (ds : List Detector) :
    (frameKeys ds).Sorted (· < ·) :=
  (List.sorted_insertionSort _ _).lt_of_le (frameKeys_nodup ds)

theorem mem_frameKeys {ds : List Detector} {p : Pt}
    (hp : p ∈ allDetections ds) : p.1 ∈ frameKeys ds := by
  unfold frameKeys
  rw [(List.perm_insertionSort _ _).mem_iff, List.mem_dedup]
  exact List.mem_map_of_mem Prod.fst hp

/-- One frame's detections, tagged with their frame, are exactly the
detections filtered to that frame. -/
theorem detectionsAt_tagged (ds : List Detector) (f : Int) :
    (detectionsAt ds f).map (fun d => ((f, d) : Pt)) =
      (allDetections ds).filter (fun p => decide (p.1 = f)) := by
  unfold detectionsAt
  rw [List.map_map]
  have : ∀ p ∈ (allDetections ds).filter (fun p => decide (p.1 = f)),
      ((fun d => ((f, d) : Pt)) ∘ Prod.snd) p = id p := by
    intro p hp
    rw [List.mem_filter] at hp
    have := of_decide_eq_true hp.2
    simp only [Function.comp, id]
    rw [← this]
  rw [List.map_congr_left this, List.map_id]

/-- Summing the per-frame detection multisets over any duplicate-free
frame list collects exactly the detections on those frames. -/
theorem sum_filter_frames (all : List Pt) :
    ∀ (ks : List Int), ks.Nodup →
      ((ks.map (fun f =>
        ((all.filter (fun p => decide (p.1 = f))) : Multiset Pt))).sum) =
        Multiset.filter (fun p => p.1 ∈ ks) (all : Multiset Pt) := by
  intro ks
  induction ks with
  | nil =>
    intro _
    rw [List.map_nil, List.sum_nil]
    symm
    rw [Multiset.filter_eq_nil]
    simp
  | cons k ks ih =>
    intro hnd
    rw [List.nodup_cons] at hnd
    rw [List.map_cons, List.sum_cons, ih hnd.2]
    have h1 : ((all.filter (fun p => decide (p.1 = k))) : Multiset Pt) =
        Multiset.filter (fun p => p.1 = k) (all : Multiset Pt) :=
      (Multiset.filter_coe _ _).symm
    rw [h1, Multiset.filter_add_filter]
    have h2 : Multiset.filter (fun p : Pt => p.1 = k ∧ p.1 ∈ ks)
        (all : Multiset Pt) = 0 := by
      rw [Multiset.filter_eq_nil]
      rintro p - ⟨rfl, hmem⟩
      exact hnd.1 hmem
    rw [h2, add_zero]
    apply Multiset.filter_congr
    intro p _
    rw [List.mem_cons]

/-- The per-frame grouping of the input is lossless: summing the grouped
detections over the sorted frame keys yields the input multiset. -/
theorem detection_partition (ds : List Detector) :
    (((frameKeys ds).map (fun f =>
      (((detectionsAt ds f).map (fun d => ((f, d) : Pt))) : Multiset Pt))).sum) =
      (allDetections ds : Multiset Pt) := by
  have h1 : ((frameKeys ds).map (fun f =>
      (((detectionsAt ds f).map (fun d => ((f, d) : Pt))) : Multiset Pt))) =
      ((frameKeys ds).map (fun f =>
        (((allDetections ds).filter (fun p => decide (p.1 = f))) : Multiset Pt))) := by
    apply List.map_congr_left
    intro f _
    rw [detectionsAt_tagged]
  rw [h1, sum_filter_frames (allDetections ds) (frameKeys ds) (frameKeys_nodup ds)]
  rw [Multiset.filter_eq_self]
  exact fun p hp => mem_frameKeys (by exact_mod_cast hp)

/-- The Stage-1 summary: the final state satisfies the invariant and its
points are a sub-multiset of the input detections. -/
theorem stage1_inv (nrm : Vec → ℚ) (solver : Solver)
    (hsolver : MatchingSolver solver) (cfg : Config) (ds : List Detector) :
    S1Inv cfg (stage1 nrm solver cfg ds) [] ∧
      points_of (stage1 nrm solver cfg ds).active +
          points_of (stage1 nrm solver cfg ds).finished ≤
        (allDetections ds : Multiset Pt) := by
  have hinit : S1Inv cfg ⟨[], [], 1⟩ (frameKeys ds) := by
    refine ⟨?_, ?_, ?_, ?_, ?_, ?_⟩ <;> intro t ht <;> cases ht
  obtain ⟨hfin, hpts⟩ := stage1_fold_inv nrm solver hsolver cfg ds
    (frameKeys ds) ⟨[], [], 1⟩ (frameKeys_sorted ds) hinit
  refine ⟨hfin, le_trans hpts ?_⟩
  rw [detection_partition ds]
  simp [points_of_nil]

/-- The finalized tracklet set inherits the invariant. -/
theorem finished_tracklets_inv (nrm : Vec → ℚ) (solver : Solver)
    (hsolver : MatchingSolver solver) (cfg : Config) (ds : List Detector) :
    (∀ t ∈ finished_tracklets nrm solver cfg ds,
      t.wf ∧ t.frames.Sorted (· < ·) ∧
        cfg.min_tracklet_length ≤ (t.positions.length : Int)) ∧
      points_of (finished_tracklets nrm solver cfg ds) ≤
        (allDetections ds : Multiset Pt) := by
  obtain ⟨hinv, hpts⟩ := stage1_inv nrm solver hsolver cfg ds
  constructor
  · intro t ht
    unfold finished_tracklets at ht
    rcases List.mem_append.1 ht with h | h
    · exact ⟨hinv.wfF t h, hinv.sortedF t h, hinv.lenF t h⟩
    · rw [List.mem_filter] at h
      exact ⟨hinv.wfA t h.1, hinv.sortedA t h.1, of_decide_eq_true h.2⟩
  · unfold finished_tracklets
    rw [points_of_append]
    have hle : points_of ((stage1 nrm solver cfg ds).active.filter
        (fun t => decide (cfg.min_tracklet_length ≤ (t.positions.length : Int)))) ≤
        points_of (stage1 nrm solver cfg ds).active :=
      points_of_sublist (List.filter_sublist _)
    calc points_of (stage1 nrm solver cfg ds).finished +
          points_of ((stage1 nrm solver cfg ds).active.filter
            (fun t => decide (cfg.min_tracklet_length ≤ (t.positions.length : Int))))
        ≤ points_of (stage1 nrm solver cfg ds).finished +
          points_of (stage1 nrm solver cfg ds).active := add_le_add_left hle _
      _ = points_of (stage1 nrm solver cfg ds).active +
          points_of (stage1 nrm solver cfg ds).finished := add_comm _ _
      _ ≤ _ := hpts

/-! ## Claim C5 -/

/-- C5: every tracklet in the finalized set produced by Stage 1 has a
strictly increasing frame sequence. -/
theorem claim_C5 (nrm : Vec → ℚ) (solver : Solver)
    (hsolver : MatchingSolver solver) (cfg : Config) (ds : List Detector) :
    ∀ t ∈ finished_tracklets nrm solver cfg ds, t.frames.Sorted (· < ·) :=
  fun t ht => ((finished_tracklets_inv nrm solver hsolver cfg ds).1 t ht).2.1

/-- Witness for C5 at a concrete input. -/
theorem claim_C5_witness :
    Tracklet.init (0, 0) 1 1 ∈ finished_tracklets nrm_taxi trivial_solver
      (extract_config { min_tracklet_length := some 1 })
      [⟨[1, 2], [0, 0], [0, 0]⟩] ∧
    (Tracklet.init (0, 0) 1 1).frames.Sorted (· < ·) :=
  ⟨by decide,
    claim_C5 nrm_taxi trivial_solver
      (by intro nr nc cost; exact ⟨List.nodup_nil, List.nodup_nil, by simp [trivial_solver]⟩)
      (extract_config { min_tracklet_length := some 1 })
      [⟨[1, 2], [0, 0], [0, 0]⟩] (Tracklet.init (0, 0) 1 1) (by decide)⟩

/-! ## Claim C6 -/

/-- C6: an unassigned active tracklet is moved to the finished set if and
only if it has at least `min_tracklet_length` points (first two parts:
the closing step at the level of list positions), so no finalized
tracklet is shorter than `min_tracklet_length` (third part, for the whole
pipeline's finalized set). -/
theorem claim_C6 (nrm : Vec → ℚ) (solver : Solver)
    (hsolver : MatchingSolver solver) (cfg : Config) (ds : List Detector) :
    (∀ (m : Int) (aT : List Nat) (l : List Tracklet) (i : Nat)
        (hi : i < l.length), i ∉ aT → m ≤ (l[i].positions.length : Int) →
        l[i] ∈ close_unassigned m aT l) ∧
    (∀ (m : Int) (aT : List Nat) (l : List Tracklet) (t : Tracklet),
        t ∈ close_unassigned m aT l → m ≤ (t.positions.length : Int)) ∧
    (∀ t ∈ finished_tracklets nrm solver cfg ds,
        cfg.min_tracklet_length ≤ (t.positions.length : Int)) := by
  refine ⟨?_, ?_, ?_⟩
  · intro m aT l i hi hnotin hlen
    unfold close_unassigned
    apply List.mem_map.2
    refine ⟨(i, l[i]), ?_, rfl⟩
    rw [List.mem_filter]
    constructor
    · have hb : i < l.enum.length := by rw [List.enum_length]; exact hi
      have hm := List.getElem_mem hb
      rw [List.getElem_enum] at hm
      exact hm
    · exact decide_eq_true ⟨hnotin, hlen⟩
  · exact fun m aT l t ht => (close_unassigned_mem m aT l t ht).2
  · exact fun t ht =>
      ((finished_tracklets_inv nrm solver hsolver cfg ds).1 t ht).2.2

/-- Witness for C6 at a concrete input. -/
theorem claim_C6_witness :
    (Tracklet.init (0, 0) 1 1).add_detection (1, 0) 2 ∈
      close_unassigned 2 []
        [(Tracklet.init (0, 0) 1 1).add_detection (1, 0) 2] :=
  (claim_C6 nrm_taxi trivial_solver
    (by intro nr nc cost; exact ⟨List.nodup_nil, List.nodup_nil, by simp [trivial_solver]⟩)
    (extract_config {}) []).1 2 []
    [(Tracklet.init (0, 0) 1 1).add_detection (1, 0) 2] 0
    (by decide) (by decide) (by decide)

/-! ## Spec-modelled linking loop (for comparison with the source's loop)

Modelled from the spec: §4.3 step 2 describes the greedy loop with a
tracklet "consumed at most once as a link-source and once as a
link-target", i.e. with the two consumption roles tracked independently;
the source instead keeps one combined `used_tracklets` set. -/

/-- Modelled from the spec: minimum-cost scan restricted to pairs `(i, j)`
whose source `i` is not yet consumed-as-source and whose target `j` is not
yet consumed-as-target. -/
def spec_find_min_pair (cost : Nat → Nat → Option ℚ) (n : Nat)
    (usedSrc usedTgt : List Nat) : Option (ℚ × Nat × Nat) :=
  (List.range n).foldl
    (fun best i =>
      if i ∈ usedSrc then best
      else
        (List.range n).foldl
          (fun best j =>
            if j ∈ usedTgt then best
            else
              match cost i j, best with
              | none, b => b
              | some c, none => some (c, i, j)
              | some c, some (b, bi, bj) =>
                if c < b then some (c, i, j) else some (b, bi, bj))
          best)
    none

/-- Modelled from the spec: the greedy loop state with the two consumption
roles tracked independently. -/
structure SpecLinkState where
  chains : List (List Nat)
  usedSrc : List Nat
  usedTgt : List Nat
deriving DecidableEq, Repr

/-- Modelled from the spec: greedily link the cheapest eligible pair,
marking `i` consumed-as-source and `j` consumed-as-target. -/
def spec_greedy_links (cost : Nat → Nat → Option ℚ) (n : Nat) :
    Nat → SpecLinkState → SpecLinkState
  | 0, s => s
  | fuel + 1, s =>
    match spec_find_min_pair cost n s.usedSrc s.usedTgt with
    | none => s
    | some (_, i, j) =>
      spec_greedy_links cost n fuel
        ⟨append_link s.chains i j, s.usedSrc ++ [i], s.usedTgt ++ [j]⟩

/-- Modelled from the spec: the complete linking stage of §4.3, tracklets
never consumed in either role remaining singleton chains. -/
def spec_linked_chains (cost : Nat → Nat → Option ℚ) (n : Nat) :
    List (List Nat) :=
  let s := spec_greedy_links cost n (n + 1) ⟨[], [], []⟩
  s.chains ++
    ((List.range n).filter
      (fun i => decide (i ∉ s.usedSrc ∧ i ∉ s.usedTgt))).map (fun i => [i])

/-! ## General helper lemmas -/

/-- Fold invariant preservation. -/
theorem foldl_preserve {α β : Type _} {P : β → Prop} {l : List α}
    {f : β → α → β} {b : β} (hb : P b)
    (hf : ∀ b' a, a ∈ l → P b' → P (f b' a)) : P (l.foldl f b) := by
  induction l generalizing b with
  | nil => exact hb
  | cons x xs ih =>
    exact ih (hf b x (by simp) hb)
      (fun b' a ha hb' => hf b' a (by simp [ha]) hb')

/-- What a successful minimum scan guarantees: both indices fresh and in
range, and the returned cost is the matrix entry. -/
theorem find_min_pair_some {cost : Nat → Nat → Option ℚ} {n : Nat}
    {used : List Nat} {c : ℚ} {i j : Nat}
    (h : find_min_pair cost n used = some (c, i, j)) :
    i ∉ used ∧ j ∉ used ∧ i < n ∧ j < n ∧ cost i j = some c := by
  have hP :
      (∀ c' i' j', find_min_pair cost n used = some (c', i', j') →
        i' ∉ used ∧ j' ∉ used ∧ i' < n ∧ j' < n ∧ cost i' j' = some c') := by
    unfold find_min_pair
    apply foldl_preserve
      (P := fun best => ∀ c' i' j', best = some (c', i', j') →
        i' ∉ used ∧ j' ∉ used ∧ i' < n ∧ j' < n ∧ cost i' j' = some c')
    · intro c' i' j' h'; cases h'
    · intro best i' hi' hbest
      split
      · exact hbest
      · rename_i hiu
        apply foldl_preserve
          (P := fun best => ∀ c' i'' j'', best = some (c', i'', j'') →
            i'' ∉ used ∧ j'' ∉ used ∧ i'' < n ∧ j'' < n ∧ cost i'' j'' = some c')
          hbest
        intro best' j' hj' hbest'
        split
        · exact hbest'
        · rename_i hju
          cases hc : cost i' j' with
          | none => exact hbest'
          | some cv =>
            cases best' with
            | none =>
              intro c' i'' j'' h'
              cases h'
              exact ⟨hiu, hju, List.mem_range.1 hi', List.mem_range.1 hj', hc⟩
            | some b =>
              obtain ⟨bv, bi, bj⟩ := b
              by_cases hcb : cv < bv
              · simp only [if_pos hcb]
                intro c' i'' j'' h'
                cases h'
                exact ⟨hiu, hju, List.mem_range.1 hi', List.mem_range.1 hj', hc⟩
              · simp only [if_neg hcb]
                exact hbest'
  exact hP c i j h

/-- When every existing chain ends in a consumed index and `i` is fresh,
the source's `append_link` can only start a new chain. -/
theorem append_link_all_lasts {chains : List (List Nat)} {used : List Nat}
    {i j : Nat} (h : ∀ c ∈ chains, c.getLastD 0 ∈ used) (hi : i ∉ used) :
    append_link chains i j = chains ++ [[i, j]] := by
  induction chains with
  | nil => rfl
  | cons c cs ih =>
    have hc : c.getLastD 0 ∈ used := h c (by simp)
    have hne : ¬ (c.getLastD 0 = i) := fun he => hi (he ▸ hc)
    simp only [append_link, if_neg hne, List.cons_append]
    rw [ih (fun c' hc' => h c' (by simp [hc']))]

/-- The invariant of the source's greedy loop: every chain has at most two
elements and ends in a consumed index. -/
def GoodChains (s : LinkState) : Prop :=
  ∀ c ∈ s.chains, c.length ≤ 2 ∧ c.getLastD 0 ∈ s.used

theorem greedy_links_good (cost : Nat → Nat → Option ℚ) (n : Nat) :
    ∀ (fuel : Nat) (s : LinkState), GoodChains s →
      GoodChains (greedy_links cost n fuel s) := by
  intro fuel
  induction fuel with
  | zero => intro s hs; exact hs
  | succ fuel ih =>
    intro s hs
    rw [greedy_links]
    cases hfind : find_min_pair cost n s.used with
    | none => exact hs
    | some b =>
      obtain ⟨c, i, j⟩ := b
      obtain ⟨hiu, hju, -, -, -⟩ := find_min_pair_some hfind
      apply ih
      intro ch hch
      rw [append_link_all_lasts (fun c' hc' => (hs c' hc').2) hiu] at hch
      rcases List.mem_append.1 hch with hch | hch
      · exact ⟨(hs ch hch).1, List.mem_append_left _ (hs ch hch).2⟩
      · simp only [List.mem_singleton] at hch
        subst hch
        exact ⟨by simp, by simp⟩

theorem flatten_map_singleton {α : Type _} (l : List α) :
    (l.map (fun i => [i])).flatten = l := by
  induction l with
  | nil => rfl
  | cons x t ih => simp [ih]

/-! ## The linking loop never reuses a tracklet -/

/-- The invariant of the greedy linking loop needed for conservation: the
chains use pairwise distinct in-range indices, all consumed. -/
def LinkInv (n : Nat) (s : LinkState) : Prop :=
  s.chains.flatten.Nodup ∧ (∀ x ∈ s.chains.flatten, x ∈ s.used ∧ x < n) ∧
    ∀ c ∈ s.chains, c.getLastD 0 ∈ s.used

theorem greedy_links_LinkInv (cost : Nat → Nat → Option ℚ) (n : Nat)
    (hdiag : ∀ i, cost i i = none) :
    ∀ (fuel : Nat) (s : LinkState), LinkInv n s →
      LinkInv n (greedy_links cost n fuel s) := by
  intro fuel
  induction fuel with
  | zero => exact fun s hs => hs
  | succ fuel ih =>
    intro s hs
    rw [greedy_links]
    cases hfind : find_min_pair cost n s.used with
    | none => exact hs
    | some b =>
      obtain ⟨c, i, j⟩ := b
      obtain ⟨hiu, hju, hin, hjn, hcost⟩ := find_min_pair_some hfind
      have hij : i ≠ j := by
        rintro rfl
        rw [hdiag i] at hcost
        cases hcost
      apply ih
      rw [append_link_all_lasts (fun c' hc' => hs.2.2 c' hc') hiu]
      refine ⟨?_, ?_, ?_⟩
      · rw [List.flatten_append]
        have h2 : ([[i, j]] : List (List Nat)).flatten = [i, j] := by simp
        rw [h2, List.nodup_append]
        refine ⟨hs.1, by simp [hij], ?_⟩
        intro x hx hx2
        have hu := (hs.2.1 x hx).1
        have h2 : x = i ∨ x = j := by simpa using hx2
        rcases h2 with h | h
        · exact hiu (h ▸ hu)
        · exact hju (h ▸ hu)
      · intro x hx
        rw [List.flatten_append] at hx
        rcases List.mem_append.1 hx with h | h
        · exact ⟨List.mem_append_left _ (hs.2.1 x h).1, (hs.2.1 x h).2⟩
        · have h2 : x = i ∨ x = j := by simpa using h
          rcases h2 with h | h
          · exact ⟨h ▸ List.mem_append_right _ (by simp), h ▸ hin⟩
          · exact ⟨h ▸ List.mem_append_right _ (by simp), h ▸ hjn⟩
      · intro ch hch
        rcases List.mem_append.1 hch with h | h
        · exact List.mem_append_left _ (hs.2.2 ch h)
        · rw [List.mem_singleton] at h
          subst h
          exact List.mem_append_right _ (by simp)

/-- The full linking output uses each tracklet index at most once, and
only in-range indices. -/
theorem linked_chains_flatten (cost : Nat → Nat → Option ℚ) (n : Nat)
    (hdiag : ∀ i, cost i i = none) :
    (linked_chains cost n).flatten.Nodup ∧
      ∀ x ∈ (linked_chains cost n).flatten, x < n := by
  have hinv := greedy_links_LinkInv cost n hdiag (n + 1) ⟨[], []⟩
    ⟨by simp, by simp, by simp⟩
  unfold linked_chains
  rw [List.flatten_append, flatten_map_singleton]
  constructor
  · rw [List.nodup_append]
    refine ⟨hinv.1, (List.filter_sublist _).nodup (List.nodup_range n), ?_⟩
    intro x hx hx2
    rw [List.mem_filter] at hx2
    exact (of_decide_eq_true hx2.2) (hinv.2.1 x hx).1
  · intro x hx
    rcases List.mem_append.1 hx with h | h
    · exact (hinv.2.1 x h).2
    · rw [List.mem_filter] at h
      exact List.mem_range.1 h.1

theorem link_cost_self (nrm : Vec → ℚ) (cfg : Config) (ts : List Tracklet)
    (i : Nat) : link_cost nrm cfg ts i i = none := by
  unfold link_cost
  rw [if_pos rfl]

/-! ## Track assembly conserves points -/

/-- The `(frame, position)` points of an output track. -/
def track_points (t : Track) : List Pt :=
  List.zip t.frames (List.zip t.columns t.rows)

/-- The multiset of points over a list of tracks. -/
def tracks_points (l : List Track) : Multiset Pt :=
  (l : Multiset Track).bind (fun t => (track_points t : Multiset Pt))

/-- The multiset of points of the whole `Tracker` output. -/
def tracker_points (tk : Tracker) : Multiset Pt := tracks_points tk.tracks

theorem chain_points_eq (ts : List Tracklet) (chain : List Nat) :
    chain_points ts chain =
      (chain.map (fun idx => tracklet_points (ts.getD idx default))).flatten := rfl

theorem tracks_points_append (a b : List Track) :
    tracks_points (a ++ b) = tracks_points a + tracks_points b := by
  simp [tracks_points]

/-- Re-zipping the three projections of a sorted point list gives it
back. -/
theorem zip_projections (l : List Pt) :
    List.zip (l.map Prod.fst)
      (List.zip (l.map (fun p => p.2.1)) (l.map (fun p => p.2.2))) = l := by
  induction l with
  | nil => rfl
  | cons p rest ih => simpa using ih

/-- The points of a freshly assembled track are a permutation of its
chain's points. -/
theorem mk_track_points (k : Nat) (pts : List Pt) :
    track_points (mk_track k pts) = pts.insertionSort (fun a b => a.1 ≤ b.1) := by
  unfold track_points mk_track
  exact zip_projections _

/-- Each kept chain contributes exactly its (re-sorted) chain points, so
the assembled tracks' points are bounded by the summed chain points. -/
theorem chains_to_tracks_from_points (cfg : Config) (ts : List Tracklet) :
    ∀ (chains : List (List Nat)) (acc : List Track),
      tracks_points (chains_to_tracks_from cfg ts chains acc) ≤
        tracks_points acc +
          ((chains.map (fun chain => ((chain_points ts chain) : Multiset Pt))).sum) := by
  intro chains
  induction chains with
  | nil =>
    intro acc
    simp [chains_to_tracks_from]
  | cons chain rest ih =>
    intro acc
    rw [chains_to_tracks_from, List.map_cons, List.sum_cons]
    by_cases hlen : ((chain_points ts chain).length : Int) < cfg.min_track_length
    · rw [if_pos hlen]
      refine le_trans (ih acc) (add_le_add_left le_add_self _)
    · rw [if_neg hlen]
      refine le_trans (ih _) ?_
      rw [tracks_points_append]
      have hsingle : tracks_points [mk_track (acc.length + 1) (chain_points ts chain)] =
          ((chain_points ts chain) : Multiset Pt) := by
        have h1 : tracks_points [mk_track (acc.length + 1) (chain_points ts chain)] =
            (track_points (mk_track (acc.length + 1) (chain_points ts chain)) : Multiset Pt) := by
          simp [tracks_points]
        rw [h1, mk_track_points]
        exact Multiset.coe_eq_coe.2 (List.perm_insertionSort _ _)
      rw [hsingle]
      exact le_of_eq (by abel)

theorem coe_flatten_eq_sum {α : Type _} (l : List (List α)) :
    ((l.flatten : List α) : Multiset α) =
      (l.map (fun x => Multiset.ofList x)).sum := by
  induction l with
  | nil => rfl
  | cons x t ih =>
    rw [List.flatten_cons, ← Multiset.coe_add, List.map_cons, List.sum_cons, ih]

theorem points_of_eq_sum (l : List Tracklet) :
    points_of l =
      ((l.map (fun t => ((tracklet_points t) : Multiset Pt))).sum) := by
  induction l with
  | nil => rfl
  | cons t rest ih => rw [points_of_cons, List.map_cons, List.sum_cons, ih]

/-- Summing the chains' points equals summing over the flattened index
list. -/
theorem sum_chain_points (ts : List Tracklet) :
    ∀ (chains : List (List Nat)),
      ((chains.map (fun c => ((chain_points ts c) : Multiset Pt))).sum) =
        (((chains.flatten).map
          (fun i => ((tracklet_points (ts.getD i default)) : Multiset Pt))).sum) := by
  intro chains
  induction chains with
  | nil => rfl
  | cons c rest ih =>
    rw [List.map_cons, List.sum_cons, ih, List.flatten_cons, List.map_append,
      List.sum_append, chain_points_eq, coe_flatten_eq_sum, List.map_map]
    rfl

/-- A duplicate-free in-range chain family's points are a sub-multiset of
the tracklets' points. -/
theorem chains_sum_le_points (ts : List Tracklet) (chains : List (List Nat))
    (hnd : chains.flatten.Nodup) (hlt : ∀ x ∈ chains.flatten, x < ts.length) :
    ((chains.map (fun c => ((chain_points ts c) : Multiset Pt))).sum) ≤
      points_of ts := by
  rw [sum_chain_points]
  have h1 : (((chains.flatten).map
      (fun i => ((tracklet_points (ts.getD i default)) : Multiset Pt))).sum) =
      points_of ((chains.flatten).map (fun i => ts.getD i default)) := by
    rw [points_of_eq_sum, List.map_map]
    rfl
  rw [h1]
  unfold points_of
  refine bind_mono _ ?_
  exact map_getD_le ts default chains.flatten hnd hlt

/-! ## Claim C4 -/

/-- C4: the output tracks' `(frame, column, row)` points form a
sub-multiset of the input detections — no point is fabricated, no
detection instance is used twice (in particular not by two tracklets on
the same frame) — and the total output point count is at most the input
detection count. -/
theorem claim_C4 (nrm : Vec → ℚ) (solver : Solver)
    (hsolver : MatchingSolver solver) (ds : List Detector)
    (config : ConfigDict) :
    tracker_points (run_tracklet_tracker nrm solver ds config) ≤
      ((allDetections ds : List Pt) : Multiset Pt) ∧
    (tracker_points (run_tracklet_tracker nrm solver ds config)).card ≤
      (allDetections ds).length := by
  have hmain : tracker_points (run_tracklet_tracker nrm solver ds config) ≤
      ((allDetections ds : List Pt) : Multiset Pt) := by
    unfold run_tracklet_tracker
    by_cases h0 : (allDetections ds).length = 0
    · rw [if_pos h0]
      exact Multiset.zero_le _
    · rw [if_neg h0]
      by_cases h1 : (finished_tracklets nrm solver (extract_config config) ds).length = 0
      · rw [if_pos h1]
        exact Multiset.zero_le _
      · rw [if_neg h1]
        show tracks_points (chains_to_tracks _ _ _) ≤ _
        unfold chains_to_tracks
        refine le_trans (chains_to_tracks_from_points _ _ _ _) ?_
        have hz : tracks_points ([] : List Track) = 0 := rfl
        rw [hz, zero_add]
        obtain ⟨hflatnd, hflatlt⟩ := linked_chains_flatten
          (link_cost nrm (extract_config config)
            (finished_tracklets nrm solver (extract_config config) ds))
          (finished_tracklets nrm solver (extract_config config) ds).length
          (link_cost_self nrm (extract_config config)
            (finished_tracklets nrm solver (extract_config config) ds))
        refine le_trans (chains_sum_le_points _ _ hflatnd hflatlt) ?_
        exact (finished_tracklets_inv nrm solver hsolver
          (extract_config config) ds).2
  refine ⟨hmain, ?_⟩
  have hcard := Multiset.card_le_card hmain
  rwa [Multiset.coe_card] at hcard

/-- Witness for C4 at a concrete input. -/
theorem claim_C4_witness :
    tracker_points (run_tracklet_tracker nrm_taxi trivial_solver
        [⟨[1, 2], [0, 0], [0, 0]⟩] {}) ≤
      ((allDetections [⟨[1, 2], [0, 0], [0, 0]⟩] : List Pt) : Multiset Pt) ∧
    (tracker_points (run_tracklet_tracker nrm_taxi trivial_solver
        [⟨[1, 2], [0, 0], [0, 0]⟩] {})).card ≤
      (allDetections [⟨[1, 2], [0, 0], [0, 0]⟩]).length :=
  claim_C4 nrm_taxi trivial_solver
    (by intro nr nc cost; exact ⟨List.nodup_nil, List.nodup_nil, by simp [trivial_solver]⟩)
    [⟨[1, 2], [0, 0], [0, 0]⟩] {}

/-! ## Claim C1 -/

/-- The cost matrix of the C1 counterexample: tracklet 1 can follow 0
(cost 1) and tracklet 2 can follow 1 (cost 2). -/
def c1_cost : Nat → Nat → Option ℚ := fun i j =>
  if i = 0 ∧ j = 1 then some 1
  else if i = 1 ∧ j = 2 then some 2
  else none

/-- C1 counterexample: after the loop links (0, 1), the pair (1, 2) still
has finite cost and tracklet 1 was never consumed as a link-source, yet
the source's loop (which keeps one combined consumed set) terminates with
chains `[[0, 1], [2]]` — no chain of three or more ever appears — whereas
the loop the claim describes (consumption tracked independently per role)
would produce the chain `[0, 1, 2]`. -/
theorem claim_C1_counterexample :
    linked_chains c1_cost 3 = [[0, 1], [2]] ∧
    c1_cost 1 2 = some 2 ∧
    (∀ c ∈ linked_chains c1_cost 3, ¬ 3 ≤ c.length) ∧
    spec_linked_chains c1_cost 3 = [[0, 1, 2]] := by decide

/-- C1 (amended): the source's greedy loop keeps a single consumed set
covering both roles, so a pair is eligible only if neither tracklet was
consumed in any role; consequently the "append to the chain ending in i"
branch never fires and every chain the Tracklet Linking Engine produces
has at most two tracklets. -/
theorem claim_C1 (cost : Nat → Nat → Option ℚ) (n : Nat) (c : List Nat)
    (hc : c ∈ linked_chains cost n) : c.length ≤ 2 := by
  unfold linked_chains at hc
  rcases List.mem_append.1 hc with hc | hc
  · have hgood : GoodChains (greedy_links cost n (n + 1) ⟨[], []⟩) :=
      greedy_links_good cost n (n + 1) ⟨[], []⟩ (by intro c' hc'; cases hc')
    exact (hgood c hc).1
  · obtain ⟨i, -, rfl⟩ := List.mem_map.1 hc
    simp

/-- Witness for C1 at a concrete input. -/
theorem claim_C1_witness :
    [0, 1] ∈ linked_chains c1_cost 3 ∧ [0, 1].length ≤ 2 :=
  ⟨by decide, claim_C1 c1_cost 3 [0, 1] (by decide)⟩

/-! ## Claim C2 -/

/-- C2 counterexample: a tracklet holding exactly one recorded point
accepts a candidate detection lying on its own (last) frame — the
`< 2 points` early return fires before the zero-elapsed-time check, so
`check_velocity_consistency` returns `True`, not `False` as claimed. -/
theorem claim_C2_counterexample :
    (Tracklet.init (0, 0) 5 1).check_velocity_consistency nrm_taxi
      ((0 : ℚ), (0 : ℚ)) 5 100 = true ∧
    (Tracklet.init (0, 0) 5 1).lastFrame = 5 ∧
    (Tracklet.init (0, 0) 5 1).positions.length = 1 := by decide

/-- C2 (amended): for every tracklet with at least two recorded points,
any candidate detection on the tracklet's last frame is rejected by
`check_velocity_consistency` (the zero-elapsed-time case, which returns
`False` rather than raising); a one-point tracklet instead accepts it via
the fewer-than-two-points early return. -/
theorem claim_C2 (nrm : Vec → ℚ) (t : Tracklet) (d : Vec) (m : ℚ)
    (h : 2 ≤ t.positions.length) :
    t.check_velocity_consistency nrm d t.lastFrame m = false := by
  unfold Tracklet.check_velocity_consistency
  have h2 : ¬ (t.positions.length < 2) := by omega
  simp [h2]

/-- Witness for C2 at a concrete two-point tracklet. -/
theorem claim_C2_witness :
    2 ≤ ((Tracklet.init (0, 0) 5 1).add_detection (1, 0) 6).positions.length ∧
    ((Tracklet.init (0, 0) 5 1).add_detection (1, 0) 6).check_velocity_consistency
      nrm_taxi (2, 0) ((Tracklet.init (0, 0) 5 1).add_detection (1, 0) 6).lastFrame
      100 = false :=
  ⟨by decide,
    claim_C2 nrm_taxi ((Tracklet.init (0, 0) 5 1).add_detection (1, 0) 6)
      (2, 0) 100 (by decide)⟩

/-! ## Claim C3 -/

/-- C3: the source extracts the configuration with bare `config.get`
defaults and performs no validation, so the invalid configuration
`min_tracklet_length = 0` does not fail fast with a configuration error
at construction time: the pipeline runs to completion on the invalid
value — Stage 1 finalizes a two-point tracklet that the valid default
`min_tracklet_length = 3` would have discarded — and returns a `Tracker`
normally.  The input is chosen so that no chain reaches the default
`min_track_length = 5`: the returned `Tracker` is empty, and the
track-packaging code of lines 359-369 (which the frozen source cannot
execute in any case, since it omits the `Track` dataclass's required
`sensor` argument and would fail there with a type error — also not a
configuration error at construction time) is never reached, so this
normal return is the frozen source's actual behaviour at this input.
`diag_solver` reproduces scipy's assignment on every cost matrix this
input produces: a single 1-by-1 matrix whose entry `0` passes `0 < 10`. -/
theorem claim_C3 :
    run_tracklet_tracker nrm_taxi diag_solver [⟨[1, 2], [0, 0], [0, 0]⟩]
        { min_tracklet_length := some 0 } =
      ⟨"Tracklet Tracker", []⟩ ∧
    (finished_tracklets nrm_taxi diag_solver
        (extract_config { min_tracklet_length := some 0 })
        [⟨[1, 2], [0, 0], [0, 0]⟩]).map (fun t => t.positions.length) = [2] ∧
    (extract_config { min_tracklet_length := some 0 }).min_tracklet_length
      = 0 := by decide

/-! ## Claim C8 -/

/-- C8 (amended): in Stage 1's per-frame association, every cost-matrix
entry of an ineligible pair (stale tracklet, distance at least
`initial_search_radius`, or failed velocity-consistency check) holds the
sentinel `2 * initial_search_radius`; a solver pair takes effect exactly
when its entry is strictly below `initial_search_radius`; and provided
`initial_search_radius ≥ 0`, a sentinel-valued match returned by the
solver is always discarded.  (With a negative radius the sentinel itself
satisfies `2r < r`, so sentinel matches are accepted — see the
counterexample.) -/
theorem claim_C8 (nrm : Vec → ℚ) (cfg : Config) (active : List Tracklet)
    (dets : List Vec) (f : Int) (pairs : List (Nat × Nat)) :
    (∀ i j,
      (3 < f - (active.getD i default).lastFrame ∨
        cfg.initial_search_radius ≤
          (active.getD i default).distance_to nrm (dets.getD j (0, 0)) f ∨
        (active.getD i default).check_velocity_consistency nrm
          (dets.getD j (0, 0)) f cfg.max_velocity_change = false) →
      formation_cost nrm cfg active dets f i j = 2 * cfg.initial_search_radius) ∧
    (∀ p ∈ pairs,
      (p ∈ accepted_pairs (formation_cost nrm cfg active dets f)
          cfg.initial_search_radius pairs ↔
        formation_cost nrm cfg active dets f p.1 p.2 <
          cfg.initial_search_radius)) ∧
    (0 ≤ cfg.initial_search_radius → ∀ p ∈ pairs,
      formation_cost nrm cfg active dets f p.1 p.2 =
          2 * cfg.initial_search_radius →
      p ∉ accepted_pairs (formation_cost nrm cfg active dets f)
          cfg.initial_search_radius pairs) := by
  refine ⟨?_, ?_, ?_⟩
  · intro i j h
    unfold formation_cost
    split_ifs with h1 h2 h3
    · rfl
    · rfl
    · rcases h with h | h | h
      · exact absurd h h1
      · exact absurd h h2
      · rw [h] at h3
        cases h3
    · rfl
  · intro p hp
    unfold accepted_pairs
    simp [List.mem_filter, hp]
  · intro hr p hp hc hmem
    rw [accepted_pairs, List.mem_filter] at hmem
    have hlt : formation_cost nrm cfg active dets f p.1 p.2 <
        cfg.initial_search_radius := of_decide_eq_true hmem.2
    rw [hc] at hlt
    linarith

/-- C8 counterexample: with `initial_search_radius = -1` the ineligible
`(0, 0)` entry holds the sentinel `2 * (-1) = -2`, the solver returns the
pair `(0, 0)`, the acceptance test `-2 < -1` passes, and the sentinel
match extends the tracklet to two points instead of being discarded. -/
theorem claim_C8_counterexample :
    formation_cost nrm_taxi (extract_config { initial_search_radius := some (-1) })
        [Tracklet.init (0, 0) 1 1] [((0 : ℚ), (0 : ℚ))] 2 0 0 =
      2 * (extract_config { initial_search_radius := some (-1) }).initial_search_radius ∧
    (stage1_step nrm_taxi diag_solver
        (extract_config { initial_search_radius := some (-1) })
        [((0 : ℚ), (0 : ℚ))] 2
        ⟨[Tracklet.init (0, 0) 1 1], [], 2⟩).active.map
      (fun t => t.positions.length) = [2] := by decide

/-- Witness for C8: with the default (nonnegative) radius, a sentinel
entry returned by the solver is discarded. -/
theorem claim_C8_witness :
    formation_cost nrm_taxi (extract_config {}) [Tracklet.init (0, 0) 1 1]
        [((0 : ℚ), (0 : ℚ))] 100 0 0 =
      2 * (extract_config {}).initial_search_radius ∧
    ((0, 0) : Nat × Nat) ∉ accepted_pairs
      (formation_cost nrm_taxi (extract_config {}) [Tracklet.init (0, 0) 1 1]
        [((0 : ℚ), (0 : ℚ))] 100)
      (extract_config {}).initial_search_radius [(0, 0)] :=
  ⟨by decide,
    (claim_C8 nrm_taxi (extract_config {}) [Tracklet.init (0, 0) 1 1]
        [((0 : ℚ), (0 : ℚ))] 100 [(0, 0)]).2.2 (by decide) (0, 0) (by decide)
      (by decide)⟩

/-! ## Claim C7 -/

/-- C7: the linking cost entry for the ordered pair `(i, j)` is finite
exactly when `i ≠ j`, tracklet `j` starts strictly after tracklet `i`
ends, the frame gap is at most `max_linking_gap`, `i`'s forward
extrapolation to `j`'s start frame is defined, and the position error is
at most `linking_search_radius`; and the finite value is
`position_error + smoothness_weight * |velocity_end(i) − velocity_start(j)|`. -/
theorem claim_C7 (nrm : Vec → ℚ) (cfg : Config) (ts : List Tracklet)
    (i j : Nat) (ti tj : Tracklet) (hti : ts.getD i default = ti)
    (htj : ts.getD j default = tj) :
    ((link_cost nrm cfg ts i j).isSome ↔
      (i ≠ j ∧ ti.lastFrame < tj.firstFrame ∧
        tj.firstFrame - ti.lastFrame ≤ cfg.max_linking_gap ∧
        ∃ pred, ti.extrapolate_forward (tj.firstFrame - ti.lastFrame) = some pred ∧
          nrm (pred - tj.firstPos) ≤ cfg.linking_search_radius)) ∧
    (∀ pred, ti.extrapolate_forward (tj.firstFrame - ti.lastFrame) = some pred →
      (link_cost nrm cfg ts i j).isSome →
      link_cost nrm cfg ts i j =
        some (nrm (pred - tj.firstPos) +
          cfg.smoothness_weight *
            nrm (ti.get_end_velocity - tj.get_start_velocity))) := by
  subst hti
  subst htj
  unfold link_cost
  by_cases hij : i = j
  · simp [hij]
  · rw [if_neg hij]
    by_cases h2 : (ts.getD j default).firstFrame ≤ (ts.getD i default).lastFrame
    · rw [if_pos h2]
      constructor
      · constructor
        · intro hs
          simp at hs
        · intro h'
          exact absurd h'.2.1 (not_lt.2 h2)
      · intro pred hpred hsome
        simp at hsome
    · rw [if_neg h2]
      by_cases h3 : cfg.max_linking_gap <
          (ts.getD j default).firstFrame - (ts.getD i default).lastFrame
      · rw [if_pos h3]
        constructor
        · constructor
          · intro hs
            simp at hs
          · intro h'
            exact absurd h'.2.2.1 (not_le.2 h3)
        · intro pred hpred hsome
          simp at hsome
      · rw [if_neg h3]
        cases hext : (ts.getD i default).extrapolate_forward
            ((ts.getD j default).firstFrame - (ts.getD i default).lastFrame) with
        | none =>
          constructor
          · constructor
            · intro hs
              simp only [link_tail, Option.isSome_none] at hs
              exact Bool.noConfusion hs
            · rintro ⟨-, -, -, pred, hp, -⟩
              exact Option.noConfusion hp
          · intro pred hpred hsome
            exact Option.noConfusion hpred
        | some pred0 =>
          by_cases h4 : cfg.linking_search_radius <
              nrm (pred0 - (ts.getD j default).firstPos)
          · constructor
            · constructor
              · intro hs
                simp only [link_tail, if_pos h4, Option.isSome_none] at hs
                exact Bool.noConfusion hs
              · rintro ⟨-, -, -, pred, hp, hle⟩
                injection hp with hp
                subst hp
                exact absurd hle (not_le.2 h4)
            · intro pred hpred hsome
              simp only [link_tail, if_pos h4, Option.isSome_none] at hsome
              exact Bool.noConfusion hsome
          · constructor
            · constructor
              · intro hs
                exact ⟨hij, not_le.1 h2, not_lt.1 h3, pred0, rfl, not_lt.1 h4⟩
              · intro h'
                simp only [link_tail, if_neg h4, Option.isSome_some]
            · intro pred hpred hsome
              injection hpred with hp
              subst hp
              simp only [link_tail, if_neg h4]

/-- The first tracklet of the C7 witness: two points, velocity `(1, 0)`. -/
def c7_t1 : Tracklet := (Tracklet.init (0, 0) 0 1).add_detection (1, 0) 1

/-- The second tracklet of the C7 witness: starts at frame 3 where the
first one extrapolates to, same velocity. -/
def c7_t2 : Tracklet := (Tracklet.init (3, 0) 3 2).add_detection (4, 0) 4

/-- Witness for C7: a concrete eligible pair with zero position error and
zero velocity discontinuity gets cost `0`. -/
theorem claim_C7_witness :
    link_cost nrm_taxi (extract_config {}) [c7_t1, c7_t2] 0 1 = some 0 := by
  have h := (claim_C7 nrm_taxi (extract_config {}) [c7_t1, c7_t2] 0 1 c7_t1 c7_t2
      rfl rfl).2 ((3 : ℚ), (0 : ℚ)) (by decide) (by decide)
  rw [h]
  decide

/-! ## Claim C9 -/

/-- C9: the pipeline is a pure function of the detection arrays, the
configuration and the (deterministic) assignment solver, so two runs on
identical inputs produce identical `Tracker` outputs — same number of
tracks with the same names, frames, rows and columns. -/
theorem claim_C9 (nrm : Vec → ℚ) (solver : Solver) (ds1 ds2 : List Detector)
    (c1 c2 : ConfigDict) (hd : ds1 = ds2) (hc : c1 = c2) :
    run_tracklet_tracker nrm solver ds1 c1 = run_tracklet_tracker nrm solver ds2 c2 ∧
    (run_tracklet_tracker nrm solver ds1 c1).tracks.length =
      (run_tracklet_tracker nrm solver ds2 c2).tracks.length ∧
    (run_tracklet_tracker nrm solver ds1 c1).tracks.map Track.name =
      (run_tracklet_tracker nrm solver ds2 c2).tracks.map Track.name ∧
    (run_tracklet_tracker nrm solver ds1 c1).tracks.map Track.frames =
      (run_tracklet_tracker nrm solver ds2 c2).tracks.map Track.frames ∧
    (run_tracklet_tracker nrm solver ds1 c1).tracks.map Track.rows =
      (run_tracklet_tracker nrm solver ds2 c2).tracks.map Track.rows ∧
    (run_tracklet_tracker nrm solver ds1 c1).tracks.map Track.columns =
      (run_tracklet_tracker nrm solver ds2 c2).tracks.map Track.columns := by
  subst hd
  subst hc
  exact ⟨rfl, rfl, rfl, rfl, rfl, rfl⟩

/-- Witness for C9 at a concrete input. -/
theorem claim_C9_witness :
    run_tracklet_tracker nrm_taxi trivial_solver [⟨[1, 2], [0, 0], [0, 0]⟩] {} =
      run_tracklet_tracker nrm_taxi trivial_solver [⟨[1, 2], [0, 0], [0, 0]⟩] {} :=
  (claim_C9 nrm_taxi trivial_solver [⟨[1, 2], [0, 0], [0, 0]⟩]
    [⟨[1, 2], [0, 0], [0, 0]⟩] {} {} rfl rfl).1

/-! ## Claim C10 -/

/-- C10: `get_start_velocity` and `get_end_velocity` are the same
function — both return the single sliding-window velocity estimate (or
the zero vector when it is undefined) — so the linking smoothness term
compares the end-window velocities of the two tracklets. -/
theorem claim_C10 (t u : Tracklet) (nrm : Vec → ℚ) :
    t.get_start_velocity = t.get_end_velocity ∧
    t.get_end_velocity = t.velocity.getD (0, 0) ∧
    nrm (t.get_end_velocity - u.get_start_velocity) =
      nrm (t.get_end_velocity - u.get_end_velocity) :=
  ⟨rfl, rfl, rfl⟩

end Vista
